import Mathlib

/-!
A shallow embedding of the map-parser library (package mp, with its older
flex-package variant where a claim depends on it) and proofs about it.

Go dynamic values (interface values of type any) are modeled by the closed
inductive `Value`. Go strings are byte sequences that may hold invalid UTF-8;
they are modeled as lists of decoded units (`GoChar`): a valid rune or an
undecodable byte. Go maps with string keys are modeled as association lists
with unique keys; Go map indexing returns the zero value (nil interface) for
an absent key, modeled by `goIndex`. Finite IEEE floating-point values are
modeled by their exact rational value (NaN and infinities are not modeled;
none of the embedded converters produces them).
-/

namespace MP

/-- A Unicode code point. -/
abbrev Rune := Nat

/-- One decoded unit of a Go string: a valid rune, or a byte that is not part
of any valid UTF-8 encoding. -/
inductive GoChar where
  | rune (c : Rune)
  | bad (b : Nat)
  deriving DecidableEq, Repr

/-- A Go string, as the sequence of its decoded units. -/
abbrev GoStr := List GoChar

/-- Embed a Lean string literal (always valid UTF-8) as a Go string. -/
def gs (s : String) : GoStr := s.data.map (fun c => GoChar.rune c.toNat)

/-- Go errors, as far as the embedded code inspects or constructs them:
a message built by errors.New / fmt.Errorf, or the composite
sliceElementErrors value ([]sliceElementError, each an index paired with the
element's error, which Go allows to be nil). -/
inductive GoError where
  | msg (s : String)
  | sliceElems (es : List (Nat × Option GoError))

/-- The dynamic value domain (Go interface value any).
vnil is the nil interface (also what indexing a map at an absent key yields);
vundef is the flex package constant UndefinedValue (a value of the distinct
named string type undefinedValueType, hence a constructor of its own);
vint8 .. vuint model Go values of the respective integer types carrying their
mathematical value; vfloat32/vfloat64 carry the exact rational value of a
finite IEEE float; vstr is a Go string; vbytes a []byte; vlist a []any. -/
inductive Value where
  | vnil
  | vundef
  | vbool (b : Bool)
  | vstr (s : GoStr)
  | vbytes (bs : List Nat)
  | vint8 (n : Int)
  | vuint8 (n : Int)
  | vint16 (n : Int)
  | vuint16 (n : Int)
  | vint32 (n : Int)
  | vuint32 (n : Int)
  | vint64 (n : Int)
  | vuint64 (n : Int)
  | vint (n : Int)
  | vuint (n : Int)
  | vfloat32 (q : ℚ)
  | vfloat64 (q : ℚ)
  | vlist (xs : List Value)

/-- Association list standing for a Go map[string]V. Keys are unique (every
map built by the embedded code preserves this). -/
abbrev AList (α : Type) := List (String × α)

/-- Go map lookup v, ok := m[k] (the ok part is isSome). -/
def alistLookup {α : Type} : AList α → String → Option α
  | [], _ => none
  | (k, v) :: rest, s => if k = s then some v else alistLookup rest s

/-- Go map assignment m[k] = v: replace the binding if the key is present,
otherwise add it. -/
def alistInsert {α : Type} : AList α → String → α → AList α
  | [], k, v => [(k, v)]
  | (k', v') :: rest, k, v =>
      if k' = k then (k, v) :: rest else (k', v') :: alistInsert rest k v

/-- Removal of a key (used only to phrase "the same map with the key absent"
in theorem statements). -/
def alistErase {α : Type} : AList α → String → AList α
  | [], _ => []
  | (k', v') :: rest, k => if k' = k then alistErase rest k else (k', v') :: alistErase rest k

/-- Go map indexing m[k] in value position: the zero value (nil interface)
when the key is absent. -/
def goIndex (m : AList Value) (k : String) : Value :=
  (alistLookup m k).getD Value.vnil

/-- The ValueConverter contract: ConvertValue(any) (any, error). -/
def ValueConverter := Value → Value × Option GoError

/-- StandardField: a field name with its ordered converter chain. -/
structure StandardField where
  name : String
  valueConverters : List ValueConverter

/-- convertSlice: feed the value through the converters in order; the first
converter to return a non-nil error breaks the loop and its result is
returned. -/
def convertSlice : Value → List ValueConverter → Value × Option GoError
  | v, [] => (v, none)
  | v, vc :: rest =>
      match vc v with
      | (v', none) => convertSlice v' rest
      | (v', some err) => (v', some err)

/-- StandardField.ConvertValue: apply the field's converter chain. -/
def StandardField.ConvertValue (f : StandardField) (value : Value) : Value × Option GoError :=
  convertSlice value f.valueConverters

/-- Type: the fields, in declaration order (the fields slice of the Go
struct). -/
structure GoType where
  fields : List StandardField

/-- fieldsByName as built by NewType: successive map assignments keyed by
field name (a duplicate name overwrites the earlier field). -/
def GoType.fieldsByName (t : GoType) : AList StandardField :=
  t.fields.foldl (fun m f => alistInsert m f.name f) []

/-- Record: the result of Type.Parse. The t back-reference is kept because
Get and Pick consult the type's field set. -/
structure Record where
  t : GoType
  original : AList Value
  converted : AList Value
  errors : AList GoError

/-- The loop body of Type.Parse over the entries of fieldsByName: convert the
raw attrs value for each field and store the result in converted, or the
error in errors. -/
def parseFields (attrs : AList Value) : List (String × StandardField) → Record → Record
  | [], r => r
  | (_, f) :: rest, r =>
      match f.ConvertValue (goIndex attrs f.name) with
      | (value, none) =>
          parseFields attrs rest { r with converted := alistInsert r.converted f.name value }
      | (_, some err) =>
          parseFields attrs rest { r with errors := alistInsert r.errors f.name err }

/-- Type.Parse: build a Record from attrs. -/
def GoType.Parse (t : GoType) (attrs : AList Value) : Record :=
  parseFields attrs t.fieldsByName
    { t := t, original := attrs, converted := [], errors := [] }

/-- The message of the panic raised by Get and Pick for a name that is not a
field of the type (fmt.Errorf with the %q verb; the names used here need no
escaping beyond quoting). -/
def notFieldMsg (s : String) : String := "\"" ++ s ++ "\" is not a field of type"

/-- Record.Get: panics (modeled as Except.error carrying the panic message)
when s is not a field of the type, else returns converted[s]. -/
def Record.Get (r : Record) (s : String) : Except String Value :=
  match alistLookup r.t.fieldsByName s with
  | none => .error (notFieldMsg s)
  | some _ => .ok (goIndex r.converted s)

/-- Record.Errors: nil when the errors map is empty, else the map itself. -/
def Record.Errors (r : Record) : Option (AList GoError) :=
  if r.errors.length = 0 then none else some r.errors

/-- The loop of Record.Pick: panic at the first key that is not a field of
the type; otherwise copy the key's converted binding when present. -/
def pickLoop (r : Record) : List String → AList Value → Except String (AList Value)
  | [], m => .ok m
  | k :: rest, m =>
      match alistLookup r.t.fieldsByName k with
      | none => .error (notFieldMsg k)
      | some _ =>
          match alistLookup r.converted k with
          | some value => pickLoop r rest (alistInsert m k value)
          | none => pickLoop r rest m

/-- Record.Pick. -/
def Record.Pick (r : Record) (keys : List String) : Except String (AList Value) :=
  pickLoop r keys []

/-- Record.Attrs: the converted map. -/
def Record.Attrs (r : Record) : AList Value := r.converted

/-! ### String helpers (strings.TrimSpace, strings.ToValidUTF8, strings.Map) -/

/-- unicode.IsSpace: the White_Space code points (Latin-1 cases plus the
Unicode White_Space table, a fixed finite set). -/
def unicodeIsSpace (c : Rune) : Bool :=
  (9 ≤ c && c ≤ 13) || c = 32 || c = 133 || c = 160 || c = 0x1680 ||
  (0x2000 ≤ c && c ≤ 0x200A) || c = 0x2028 || c = 0x2029 || c = 0x202F ||
  c = 0x205F || c = 0x3000

/-- Whether a Go string unit is a white-space rune (an undecodable byte is
not). -/
def goChIsSpace : GoChar → Bool
  | .rune c => unicodeIsSpace c
  | .bad _ => false

/-- strings.TrimSpace: remove leading and trailing white space. -/
def goTrimSpace (s : GoStr) : GoStr :=
  ((s.dropWhile goChIsSpace).reverse.dropWhile goChIsSpace).reverse

/-- strings.ToValidUTF8 with the empty replacement string: invalid bytes are
deleted, valid runes kept. -/
def goToValidUTF8 (s : GoStr) : GoStr :=
  s.filterMap (fun c => match c with | .rune r => some (.rune r) | .bad _ => none)

/-- strings.Map with a total rune mapping f (never dropping): each valid rune
r becomes f r; an undecodable byte is decoded as the replacement rune U+FFFD,
mapped, and re-encoded (so it becomes the valid rune f U+FFFD). -/
def goStrMap (f : Rune → Rune) (s : GoStr) : GoStr :=
  s.map (fun c => match c with | .rune r => .rune (f r) | .bad _ => .rune (f 0xFFFD))

/-- normalizeForParsing: a string is trimmed, and turned into nil when the
trimmed string is empty; any other value is returned unchanged. -/
def normalizeForParsing : Value → Value
  | .vstr s =>
      let t := goTrimSpace s
      if t.isEmpty then .vnil else .vstr t
  | v => v

/-! ### Simple converters -/

/-- requireValueConverter.ConvertValue: error if the value is nil or the
empty string (the Go comparison value == "" matches only a string-typed
empty value), else pass through unchanged. -/
def requireConvert : ValueConverter := fun value =>
  match value with
  | .vnil => (.vnil, some (.msg "cannot be nil or empty"))
  | .vstr [] => (.vnil, some (.msg "cannot be nil or empty"))
  | v => (v, none)

/-- notNilValueConverter.ConvertValue: error iff the value is nil. -/
def notNilConvert : ValueConverter := fun value =>
  match value with
  | .vnil => (.vnil, some (.msg "cannot be nil"))
  | v => (v, none)

/-! ### Integer ranges and float rounding

Finite IEEE values are carried as exact rationals. Rounding an integer to
float64 or float32 (needed for the integrality check of convertInt64) always
yields an integral value for inputs of int64 magnitude, so it is computed as
an Int. -/

def maxInt64 : Int := 2 ^ 63 - 1

def minInt64 : Int := -(2 ^ 63)

def maxInt32 : Int := 2 ^ 31 - 1

def minInt32 : Int := -(2 ^ 31)

/-- The Go constant math.MinInt64 converted to float32 or float64: -2^63 is
exactly representable in both. -/
def minInt64Float : ℚ := -(2 ^ 63)

/-- The Go constant math.MaxInt64 converted to float32 or float64: 2^63 - 1
is not representable and rounds to 2^63 in both. -/
def maxInt64Float : ℚ := 2 ^ 63

/-- math.MaxFloat32. -/
def maxFloat32 : ℚ := (2 ^ 24 - 1) * 2 ^ 104

/-- math.MaxFloat64. -/
def maxFloat64 : ℚ := (2 ^ 53 - 1) * 2 ^ 971

/-- Number of binary digits of n, by fueled division (exact for n < 2^4096,
far beyond every quantity the model computes with). -/
def bitlenAux : Nat → Nat → Nat
  | 0, _ => 0
  | fuel + 1, n => if n = 0 then 0 else bitlenAux fuel (n / 2) + 1

def bitlen (n : Nat) : Nat := bitlenAux 4096 n

/-- Round a to the nearest multiple of 2^e, ties to the even multiple. -/
def roundHalfEvenNat (a e : Nat) : Nat :=
  if e = 0 then a
  else
    let p := 2 ^ e
    let q := a / p
    let r := a % p
    let half := p / 2
    let q2 := if half < r || (r = half && q % 2 = 1) then q + 1 else q
    q2 * p

/-- IEEE round-to-nearest-even of an integer to a binary format with prec
mantissa bits (53 for float64, 24 for float32); exact when the magnitude
fits in prec bits. The result of rounding an int64-sized integer is itself
an integer. -/
def roundIntToFloat (prec : Nat) (n : Int) : Int :=
  if n.natAbs < 2 ^ prec then n
  else Int.sign n * (roundHalfEvenNat n.natAbs (bitlen n.natAbs - prec) : Int)

/-- Truncation of a rational toward zero. -/
def ratTrunc (q : ℚ) : Int := if 0 ≤ q then ⌊q⌋ else ⌈q⌉

/-- Go conversion int64(f) for a float value f: truncation toward zero; when
the result does not fit in int64 the Go result is implementation dependent,
and the model fixes the amd64 behavior (the conversion instruction yields
the minimum int64). -/
def goFloatToInt64 (q : ℚ) : Int :=
  let t := ratTrunc q
  if t < minInt64 || maxInt64 < t then minInt64 else t

/-- Whether 2^e ≤ a / d (a d : Nat, d ≠ 0). -/
def pow2LeRat (e : Int) (a d : Nat) : Bool :=
  if 0 ≤ e then d * 2 ^ e.toNat ≤ a else d ≤ a * 2 ^ (-e).toNat

/-- Floor of the base-2 logarithm of the absolute value of a nonzero
rational. -/
def ratLog2 (q : ℚ) : Int :=
  let a := q.num.natAbs
  let d := q.den
  let e0 : Int := (bitlen a : Int) - (bitlen d : Int)
  if pow2LeRat e0 a d then e0 else e0 - 1

/-- Round q to the nearest integral multiple of 2^e, ties to even. -/
def roundRatToGrid (e : Int) (q : ℚ) : ℚ :=
  let s := q * (2 : ℚ) ^ (-e)
  let fl : Int := ⌊s⌋
  let r := s - fl
  let q2 : Int := if r < 1 / 2 then fl else if 1 / 2 < r then fl + 1
                  else if fl % 2 = 0 then fl else fl + 1
  (q2 : ℚ) * (2 : ℚ) ^ e

/-- IEEE round-to-nearest-even of a rational to a binary format with prec
mantissa bits and minimum exponent emin (ignoring overflow, which callers
check against the format's maximum). -/
def roundRatToFloat (prec : Nat) (emin : Int) (q : ℚ) : ℚ :=
  if q = 0 then 0 else roundRatToGrid (max (ratLog2 q + 1 - prec) emin) q

/-- Rounding to float64. -/
def roundF64 (q : ℚ) : ℚ := roundRatToFloat 53 (-1074) q

/-- Rounding to float32. -/
def roundF32 (q : ℚ) : ℚ := roundRatToFloat 24 (-149) q

/-! ### fmt.Sprintf("%v", value) and strconv parsing -/

/-- Decimal digits of n (fueled; exact for n < 10^48). -/
def natToDigitsAux : Nat → Nat → GoStr
  | 0, _ => []
  | fuel + 1, n =>
      if n < 10 then [.rune (48 + n)]
      else natToDigitsAux fuel (n / 10) ++ [.rune (48 + n % 10)]

def natToGoStr (n : Nat) : GoStr := natToDigitsAux 48 n

def intToGoStr (n : Int) : GoStr :=
  if n < 0 then .rune 45 :: natToGoStr n.natAbs else natToGoStr n.natAbs

mutual

/-- fmt.Sprintf("%v", value) for the values that can reach the default
branch of the numeric converters, plus the numeric types (decimal
notation). Floats are printed as num/den, which is not the Go shortest
decimal form; no embedded converter formats a float (the float cases of
every switch precede the default formatting branch), so this never matters
for a theorem. -/
def goSprintV : Value → GoStr
  | .vnil => gs "<nil>"
  | .vundef => gs "undefined value"
  | .vbool true => gs "true"
  | .vbool false => gs "false"
  | .vstr s => s
  | .vbytes bs => .rune 91 :: goSprintBytes bs ++ [.rune 93]
  | .vint8 n => intToGoStr n
  | .vuint8 n => intToGoStr n
  | .vint16 n => intToGoStr n
  | .vuint16 n => intToGoStr n
  | .vint32 n => intToGoStr n
  | .vuint32 n => intToGoStr n
  | .vint64 n => intToGoStr n
  | .vuint64 n => intToGoStr n
  | .vint n => intToGoStr n
  | .vuint n => intToGoStr n
  | .vfloat32 q => intToGoStr q.num ++ .rune 47 :: natToGoStr q.den
  | .vfloat64 q => intToGoStr q.num ++ .rune 47 :: natToGoStr q.den
  | .vlist xs => .rune 91 :: goSprintList xs ++ [.rune 93]

def goSprintList : List Value → GoStr
  | [] => []
  | [x] => goSprintV x
  | x :: y :: xs => goSprintV x ++ .rune 32 :: goSprintList (y :: xs)

def goSprintBytes : List Nat → GoStr
  | [] => []
  | [b] => natToGoStr b
  | b :: c :: bs => natToGoStr b ++ .rune 32 :: goSprintBytes (c :: bs)

end

/-- Accumulate a run of decimal digit runes; none if any unit is not a
digit. -/
def digitsVal : GoStr → Nat → Option Nat
  | [], acc => some acc
  | .rune c :: rest, acc =>
      if 48 ≤ c ∧ c ≤ 57 then digitsVal rest (acc * 10 + (c - 48)) else none
  | .bad _ :: _, _ => none

/-- Core of strconv.ParseInt(s, 10, 64) after the optional sign: at least
one digit, all digits, and the signed value must fit in int64 (Go reports
ErrRange there; the callers only test err ≠ nil, so every failure is
none). -/
def goParseInt64Core (neg : Bool) (ds : GoStr) : Option Int :=
  if ds.isEmpty then none
  else
    match digitsVal ds 0 with
    | none => none
    | some n =>
        let v : Int := if neg then -(n : Int) else (n : Int)
        if v < minInt64 || maxInt64 < v then none else some v

/-- strconv.ParseInt(s, 10, 64), collapsed to its value when err = nil. -/
def goParseInt64 (s : GoStr) : Option Int :=
  match s with
  | .rune 43 :: rest => goParseInt64Core false rest
  | .rune 45 :: rest => goParseInt64Core true rest
  | _ => goParseInt64Core false s

/-- Digits with their count (for the fractional part of a float literal). -/
def digitsValCount : GoStr → Nat → Nat → Option (Nat × Nat)
  | [], acc, cnt => some (acc, cnt)
  | .rune c :: rest, acc, cnt =>
      if 48 ≤ c ∧ c ≤ 57 then digitsValCount rest (acc * 10 + (c - 48)) (cnt + 1) else none
  | .bad _ :: _, _, _ => none

def isDigitCh : GoChar → Bool
  | .rune c => 48 ≤ c && c ≤ 57
  | .bad _ => false

/-- Mantissa of a decimal float literal: digits [. digits], at least one
digit in total; its exact rational value. -/
def parseMantissa (s : GoStr) : Option ℚ :=
  let ip := s.takeWhile isDigitCh
  let rest := s.dropWhile isDigitCh
  match rest with
  | [] =>
      if ip.isEmpty then none
      else (digitsVal ip 0).map (fun n => (n : ℚ))
  | .rune 46 :: fr =>
      if ip.isEmpty && fr.isEmpty then none
      else
        match digitsVal ip 0, digitsValCount fr 0 0 with
        | some n, some (m, cnt) => some ((n : ℚ) + (m : ℚ) / 10 ^ cnt)
        | _, _ => none
  | _ => none

/-- Split a float literal at the first exponent marker e or E. -/
def splitAtExpChar : GoStr → GoStr × Option GoStr
  | [] => ([], none)
  | .rune 101 :: rest => ([], some rest)
  | .rune 69 :: rest => ([], some rest)
  | c :: rest =>
      let (a, b) := splitAtExpChar rest
      (c :: a, b)

/-- Signed decimal exponent of a float literal. -/
def parseExp (s : GoStr) : Option Int :=
  match s with
  | .rune 43 :: rest => if rest.isEmpty then none else (digitsVal rest 0).map (fun n => (n : Int))
  | .rune 45 :: rest => if rest.isEmpty then none else (digitsVal rest 0).map (fun n => -(n : Int))
  | _ => if s.isEmpty then none else (digitsVal s 0).map (fun n => (n : Int))

/-- strconv.ParseFloat(s, 64), collapsed to its value when err = nil:
a decimal literal [sign] digits [. digits] [e|E [sign] digits], evaluated
exactly and rounded to float64; values whose magnitude overflows float64
are errors (hexadecimal literals, Inf and NaN spellings are not modeled —
no theorem depends on them). -/
def goParseFloat64Core (neg : Bool) (s : GoStr) : Option ℚ :=
  let (mstr, estr) := splitAtExpChar s
  match parseMantissa mstr with
  | none => none
  | some m =>
      let eval := fun (e : Int) =>
        let v : ℚ := (if neg then -m else m) * (10 : ℚ) ^ e
        let w := roundF64 v
        if maxFloat64 < |w| then none else some w
      match estr with
      | none => eval 0
      | some es =>
          match parseExp es with
          | none => none
          | some e => eval e

def goParseFloat64 (s : GoStr) : Option ℚ :=
  match s with
  | .rune 43 :: rest => goParseFloat64Core false rest
  | .rune 45 :: rest => goParseFloat64Core true rest
  | _ => goParseFloat64Core false s

/-! ### Numeric converters -/

/-- The float32 and float64 cases of convertInt64, which are identical in
the source but for the destination of the convert-back rounding (float32
has 24 mantissa bits, float64 has 53): range-check against the
float-converted int64 bounds, truncate to int64, convert back and require
equality, else "not a valid number". -/
def convertIntFromFloat (prec : Nat) (q : ℚ) : Except GoError Int :=
  if q < minInt64Float then .error (.msg "less than minimum allowed number")
  else if maxInt64Float < q then .error (.msg "greater than maximum allowed number")
  else if ((roundIntToFloat prec (goFloatToInt64 q) : ℚ) ≠ q) then .error (.msg "not a valid number")
  else .ok (goFloatToInt64 q)

/-- convertInt64: the type switch of the source. Integer types pass through
(uint64 and uint check the int64 maximum); float types are range-checked
against the float-converted int64 bounds and must survive the
truncate-and-convert-back integrality test; everything else is formatted
with %v, trimmed, and parsed as a decimal int64. -/
def convertInt64 : Value → Except GoError Int
  | .vint8 n => .ok n
  | .vuint8 n => .ok n
  | .vint16 n => .ok n
  | .vuint16 n => .ok n
  | .vint32 n => .ok n
  | .vuint32 n => .ok n
  | .vint64 n => .ok n
  | .vuint64 n =>
      if maxInt64 < n then .error (.msg "greater than maximum allowed number") else .ok n
  | .vint n => .ok n
  | .vuint n =>
      if maxInt64 < n then .error (.msg "greater than maximum allowed number") else .ok n
  | .vfloat32 q => convertIntFromFloat 24 q
  | .vfloat64 q => convertIntFromFloat 53 q
  | v =>
      match goParseInt64 (goTrimSpace (goSprintV v)) with
      | none => .error (.msg "not a valid number")
      | some n => .ok n

/-- convertInt32: convertInt64 followed by the int32 range check. -/
def convertInt32 (value : Value) : Except GoError Int :=
  match convertInt64 value with
  | .error e => .error e
  | .ok n =>
      if n < minInt32 then .error (.msg "less than minimum allowed number")
      else if maxInt32 < n then .error (.msg "greater than maximum allowed number")
      else .ok n

/-- int64ValueConverter.ConvertValue. -/
def int64Convert : ValueConverter := fun value =>
  match normalizeForParsing value with
  | .vnil => (.vnil, none)
  | v =>
      match convertInt64 v with
      | .error e => (.vnil, some e)
      | .ok n => (.vint64 n, none)

/-- int32ValueConverter.ConvertValue. -/
def int32Convert : ValueConverter := fun value =>
  match normalizeForParsing value with
  | .vnil => (.vnil, none)
  | v =>
      match convertInt32 v with
      | .error e => (.vnil, some e)
      | .ok n => (.vint32 n, none)

/-- convertFloat64: integer types convert exactly up to 32 bits and round
for the 64-bit types; float types pass through; everything else is
formatted, trimmed and parsed. -/
def convertFloat64 : Value → Except GoError ℚ
  | .vint8 n => .ok (n : ℚ)
  | .vuint8 n => .ok (n : ℚ)
  | .vint16 n => .ok (n : ℚ)
  | .vuint16 n => .ok (n : ℚ)
  | .vint32 n => .ok (n : ℚ)
  | .vuint32 n => .ok (n : ℚ)
  | .vint64 n => .ok ((roundIntToFloat 53 n : Int) : ℚ)
  | .vuint64 n => .ok ((roundIntToFloat 53 n : Int) : ℚ)
  | .vint n => .ok ((roundIntToFloat 53 n : Int) : ℚ)
  | .vuint n => .ok ((roundIntToFloat 53 n : Int) : ℚ)
  | .vfloat32 q => .ok q
  | .vfloat64 q => .ok q
  | v =>
      match goParseFloat64 (goTrimSpace (goSprintV v)) with
      | none => .error (.msg "not a valid number")
      | some n => .ok n

/-- convertFloat32: convertFloat64 followed by the float32 range check and
the conversion to float32 (a rounding). -/
def convertFloat32 (value : Value) : Except GoError ℚ :=
  match convertFloat64 value with
  | .error e => .error e
  | .ok n =>
      if n < -maxFloat32 then .error (.msg "less than minimum allowed number")
      else if maxFloat32 < n then .error (.msg "greater than maximum allowed number")
      else .ok (roundF32 n)

/-- float32ValueConverter.ConvertValue. -/
def float32Convert : ValueConverter := fun value =>
  match normalizeForParsing value with
  | .vnil => (.vnil, none)
  | v =>
      match convertFloat32 v with
      | .error e => (.vnil, some e)
      | .ok n => (.vfloat32 n, none)

/-! ### Slice converter

Slice[T] is generic; the model abstracts the two points where T enters:
isSliceT decides the first switch case (whether the input's dynamic type is
already []T; for a concrete T this is false for a []any input), isT decides
the element type assertion element.(T), and zeroT is T's zero value (left in
the output slot when the assertion fails — such a slot never escapes,
because the assertion failure also appends to the element errors, making the
whole conversion fail). -/

/-- The element loop of Slice: convert each element; a conversion error is
appended to the element errors, and a failed type assertion appends the same
(possibly nil) error again. All elements are processed. The Nat argument is
the index of the first element. -/
def sliceLoop (isT : Value → Bool) (zeroT : Value) (conv : ValueConverter) :
    List Value → Nat → List Value × List (Nat × Option GoError)
  | [], _ => ([], [])
  | x :: rest, i =>
      let p := conv x
      let errs0 : List (Nat × Option GoError) :=
        match p.2 with
        | some _ => [(i, p.2)]
        | none => []
      let (entry, errs1) :=
        if isT p.1 then (p.1, ([] : List (Nat × Option GoError))) else (zeroT, [(i, p.2)])
      let (ts, elErrs) := sliceLoop isT zeroT conv rest (i + 1)
      (entry :: ts, errs0 ++ errs1 ++ elErrs)

/-- Slice[T](elementConverter).ConvertValue: nil passes through; a value
that already is a []T passes through; a []any is converted element-wise,
failing with the collected sliceElementErrors when any element failed;
anything else cannot convert. -/
def sliceConvert (isSliceT : Value → Bool) (isT : Value → Bool) (zeroT : Value)
    (conv : ValueConverter) : ValueConverter := fun value =>
  match value with
  | .vnil => (.vnil, none)
  | v =>
      if isSliceT v then (v, none)
      else
        match v with
        | .vlist xs =>
            let (ts, elErrs) := sliceLoop isT zeroT conv xs 0
            if elErrs.isEmpty then (.vlist ts, none)
            else (.vnil, some (.sliceElems elErrs))
        | _ => (.vnil, some (.msg "cannot convert to slice"))

/-! ### SingleLineString -/

/-- The normalization performed by SingleLineString, parameterized by the
print classifier (the Go unicode.IsPrint table, of which the proofs only use
that it accepts the ASCII space): remove invalid UTF-8 by deletion, replace
every non-printable rune by an ASCII space, then trim white space from both
ends. -/
def singleLineNormalize (isPrint : Rune → Bool) (s : GoStr) : GoStr :=
  goTrimSpace (goStrMap (fun r => if isPrint r then r else 32) (goToValidUTF8 s))

/-- singleLineStringValueConverter.ConvertValue: nil passes through, a
string is normalized, anything else errors. -/
def singleLineConvert (isPrint : Rune → Bool) : ValueConverter := fun value =>
  match value with
  | .vnil => (.vnil, none)
  | .vstr s => (.vstr (singleLineNormalize isPrint s), none)
  | _ => (.vnil, some (.msg "not a string"))

/-- A sample print classifier for concrete witnesses: the ASCII printable
characters, space through tilde. The Go unicode.IsPrint table agrees with it
on ASCII, and like it accepts the space. -/
def asciiIsPrint (c : Rune) : Bool := 32 ≤ c && c ≤ 126

/-! ### The flex-package variant (flex.go): Type.New with UndefinedValue -/

/-- flex field: a name with its converter chain. -/
structure FlexField where
  name : String
  converters : List ValueConverter

/-- flex Type: the name-keyed field map built by the Field method. -/
structure FlexType where
  fields : List (String × FlexField)

/-- flex record. -/
structure FlexRecord where
  original : AList Value
  converted : AList Value
  errors : AList GoError

/-- Whether a value is the flex constant UndefinedValue (the comparison
v != UndefinedValue of the source; the unexported type has no other
values). -/
def isUndef : Value → Bool
  | .vundef => true
  | _ => false

/-- The converter loop inlined in flex Type.New (same shape as
convertSlice). -/
def flexApplyChain : Value → List ValueConverter → Value × Option GoError
  | v, [] => (v, none)
  | v, c :: rest =>
      match c v with
      | (v', none) => flexApplyChain v' rest
      | (v', some err) => (v', some err)

/-- The field loop of flex Type.New: an absent key is replaced by
UndefinedValue before the chain runs; a successful chain result is stored
only when it is not UndefinedValue; an error is stored in errors. -/
def flexNewLoop (attrs : AList Value) : List (String × FlexField) → FlexRecord → FlexRecord
  | [], r => r
  | (_, f) :: rest, r =>
      let v0 := match alistLookup attrs f.name with
        | some v => v
        | none => Value.vundef
      match flexApplyChain v0 f.converters with
      | (v, none) =>
          if isUndef v then flexNewLoop attrs rest r
          else flexNewLoop attrs rest { r with converted := alistInsert r.converted f.name v }
      | (_, some err) =>
          flexNewLoop attrs rest { r with errors := alistInsert r.errors f.name err }

/-- flex Type.New. -/
def FlexType.New (t : FlexType) (attrs : AList Value) : FlexRecord :=
  flexNewLoop attrs t.fields { original := attrs, converted := [], errors := [] }

/-! ### Heap-instrumented Parse (for the frame property)

Go maps are heap objects passed by reference. To state that Parse never
writes to its argument map, Parse is re-embedded against an explicit store
of map objects: the attrs map is passed as a reference, the converted and
errors maps are allocated fresh, and every write names its target map. The
pure Parse above is the same code with the store elided; a theorem below
connects the two. -/

/-- A store of map objects holding values of type α; references are indices,
allocation appends. -/
structure HeapOf (α : Type) where
  maps : List (AList α)

def HeapOf.alloc {α : Type} (h : HeapOf α) (m : AList α) : HeapOf α × Nat :=
  (⟨h.maps ++ [m]⟩, h.maps.length)

def HeapOf.read {α : Type} (h : HeapOf α) (r : Nat) : AList α :=
  h.maps[r]?.getD []

def HeapOf.write {α : Type} (h : HeapOf α) (r : Nat) (k : String) (v : α) : HeapOf α :=
  ⟨h.maps.set r (alistInsert (h.read r) k v)⟩

/-- The Record as built by the instrumented Parse: references into the two
stores. -/
structure RecordH where
  originalRef : Nat
  convertedRef : Nat
  errorsRef : Nat

/-- The field loop of Parse, instrumented: reads attrs through its
reference, writes through the converted/errors references. -/
def parseFieldsH (hv : HeapOf Value) (he : HeapOf GoError) (attrsRef convRef errRef : Nat) :
    List (String × StandardField) → HeapOf Value × HeapOf GoError
  | [] => (hv, he)
  | (_, f) :: rest =>
      match f.ConvertValue (goIndex (hv.read attrsRef) f.name) with
      | (value, none) =>
          parseFieldsH (hv.write convRef f.name value) he attrsRef convRef errRef rest
      | (_, some err) =>
          parseFieldsH hv (he.write errRef f.name err) attrsRef convRef errRef rest

/-- Type.Parse, instrumented: allocate the converted and errors maps fresh,
run the field loop, and return the record holding attrs itself as
original. -/
def parseH (t : GoType) (hv : HeapOf Value) (he : HeapOf GoError) (attrsRef : Nat) :
    HeapOf Value × HeapOf GoError × RecordH :=
  let (hv1, convRef) := hv.alloc []
  let (he1, errRef) := he.alloc []
  let (hv2, he2) := parseFieldsH hv1 he1 attrsRef convRef errRef t.fieldsByName
  (hv2, he2, { originalRef := attrsRef, convertedRef := convRef, errorsRef := errRef })

/-! ## Lemmas: association lists -/

/-- The keys of an association list. -/
def alistKeys {α : Type} (m : AList α) : List String := m.map Prod.fst

theorem alistLookup_insert {α : Type} (m : AList α) (k s : String) (v : α) :
    alistLookup (alistInsert m k v) s = if k = s then some v else alistLookup m s := by
  induction m with
  | nil => simp [alistInsert, alistLookup]
  | cons p rest ih =>
      obtain ⟨k', w⟩ := p
      by_cases h1 : k' = k
      · subst h1
        by_cases h2 : k' = s <;> simp [alistInsert, alistLookup, h2]
      · by_cases h2 : k' = s
        · subst h2
          have hks : k ≠ k' := fun h => h1 h.symm
          simp [alistInsert, alistLookup, h1, hks]
        · simp [alistInsert, alistLookup, h1, h2, ih]

theorem alistKeys_nil {α : Type} : alistKeys ([] : AList α) = [] := rfl

theorem alistKeys_cons {α : Type} (p : String × α) (m : AList α) :
    alistKeys (p :: m) = p.1 :: alistKeys m := rfl

theorem alistLookup_erase {α : Type} (m : AList α) (k s : String) :
    alistLookup (alistErase m k) s = if k = s then none else alistLookup m s := by
  induction m with
  | nil => simp [alistErase, alistLookup]
  | cons p rest ih =>
      obtain ⟨k', w⟩ := p
      by_cases h1 : k' = k
      · subst h1
        rw [show alistErase ((k', w) :: rest) k' = alistErase rest k' from by
          simp [alistErase]]
        rw [ih]
        by_cases h2 : k' = s <;> simp [h2, alistLookup]
      · by_cases h2 : k' = s
        · subst h2
          have hks : k ≠ k' := fun h => h1 h.symm
          simp [alistErase, alistLookup, h1, hks]
        · simp [alistErase, alistLookup, h1, h2, ih]

theorem alistLookup_eq_none_iff {α : Type} (m : AList α) (s : String) :
    alistLookup m s = none ↔ s ∉ alistKeys m := by
  induction m with
  | nil => simp [alistLookup, alistKeys]
  | cons p rest ih =>
      obtain ⟨k, v⟩ := p
      rw [alistKeys_cons]
      by_cases h : k = s
      · subst h
        simp [alistLookup]
      · simp only [alistLookup, if_neg h, ih, List.mem_cons]
        constructor
        · intro hn hor
          rcases hor with hor | hor
          · exact h hor.symm
          · exact hn hor
        · intro hn hmem
          exact hn (Or.inr hmem)

theorem mem_of_alistLookup_eq_some {α : Type} {m : AList α} {s : String} {v : α}
    (h : alistLookup m s = some v) : (s, v) ∈ m := by
  induction m with
  | nil => simp [alistLookup] at h
  | cons p rest ih =>
      obtain ⟨k, w⟩ := p
      by_cases hk : k = s
      · subst hk
        simp [alistLookup] at h
        simp [h]
      · simp [alistLookup, hk] at h
        exact List.mem_cons_of_mem _ (ih h)

theorem mem_alistKeys_insert {α : Type} {m : AList α} {k s : String} {v : α}
    (h : s ∈ alistKeys (alistInsert m k v)) : s = k ∨ s ∈ alistKeys m := by
  induction m with
  | nil => simpa [alistInsert, alistKeys] using h
  | cons p rest ih =>
      obtain ⟨k', w⟩ := p
      by_cases h1 : k' = k
      · subst h1
        rw [show alistInsert ((k', w) :: rest) k' v = (k', v) :: rest from by
          simp [alistInsert]] at h
        rw [alistKeys_cons] at h
        rcases List.mem_cons.mp h with h2 | h2
        · exact Or.inl h2
        · exact Or.inr (by rw [alistKeys_cons]; exact List.mem_cons.mpr (Or.inr h2))
      · rw [show alistInsert ((k', w) :: rest) k v = (k', w) :: alistInsert rest k v from by
          simp [alistInsert, h1]] at h
        rw [alistKeys_cons] at h
        rcases List.mem_cons.mp h with h2 | h2
        · exact Or.inr (by rw [alistKeys_cons]; exact List.mem_cons.mpr (Or.inl h2))
        · rcases ih h2 with h3 | h3
          · exact Or.inl h3
          · exact Or.inr (by rw [alistKeys_cons]; exact List.mem_cons.mpr (Or.inr h3))

theorem alistKeys_nodup_insert {α : Type} {m : AList α} (k : String) (v : α)
    (h : (alistKeys m).Nodup) : (alistKeys (alistInsert m k v)).Nodup := by
  induction m with
  | nil => simp [alistInsert, alistKeys]
  | cons p rest ih =>
      obtain ⟨k', w⟩ := p
      rw [alistKeys_cons, List.nodup_cons] at h
      by_cases h1 : k' = k
      · subst h1
        rw [show alistInsert ((k', w) :: rest) k' v = (k', v) :: rest from by
          simp [alistInsert]]
        rw [alistKeys_cons, List.nodup_cons]
        exact h
      · rw [show alistInsert ((k', w) :: rest) k v = (k', w) :: alistInsert rest k v from by
          simp [alistInsert, h1]]
        rw [alistKeys_cons, List.nodup_cons]
        constructor
        · intro hmem
          rcases mem_alistKeys_insert hmem with h2 | h2
          · exact h1 h2
          · exact h.1 h2
        · exact ih h.2

theorem alistLookup_eq_some_of_mem {α : Type} {m : AList α}
    (hnd : (alistKeys m).Nodup) {k : String} {v : α} (h : (k, v) ∈ m) :
    alistLookup m k = some v := by
  induction m with
  | nil => simp at h
  | cons p rest ih =>
      obtain ⟨k', w⟩ := p
      rw [alistKeys_cons, List.nodup_cons] at hnd
      rcases List.mem_cons.mp h with h1 | h1
      · obtain ⟨hk, hv⟩ := Prod.mk.inj_iff.mp h1.symm
        subst hk; subst hv
        simp [alistLookup]
      · have hk : k' ≠ k := by
          intro he
          subst he
          have hmem : k' ∈ alistKeys rest := by
            unfold alistKeys
            exact List.mem_map_of_mem Prod.fst h1
          exact hnd.1 hmem
        simp [alistLookup, hk]
        exact ih hnd.2 h1

/-! ## Lemmas: fieldsByName invariants -/

theorem fieldsByName_key_eq_name (t : GoType) :
    ∀ p ∈ t.fieldsByName, p.1 = p.2.name := by
  have main : ∀ (fs : List StandardField) (acc : AList StandardField),
      (∀ p ∈ acc, p.1 = p.2.name) →
      ∀ p ∈ fs.foldl (fun m f => alistInsert m f.name f) acc, p.1 = p.2.name := by
    intro fs
    induction fs with
    | nil => intro acc h; simpa using h
    | cons f rest ih =>
        intro acc h
        simp only [List.foldl_cons]
        apply ih
        intro p hp
        induction acc with
        | nil =>
            simp [alistInsert] at hp
            simp [hp]
        | cons q accRest ihacc =>
            obtain ⟨k', w⟩ := q
            by_cases h1 : k' = f.name
            · subst h1
              simp [alistInsert] at hp
              rcases hp with hp | hp
              · simp [hp]
              · exact h _ (List.mem_cons_of_mem _ hp)
            · simp [alistInsert, h1] at hp
              rcases hp with hp | hp
              · exact h _ (by simp [hp])
              · exact ihacc (fun q hq => h q (List.mem_cons_of_mem _ hq)) hp
  intro p hp
  exact main t.fields [] (by simp) p hp

theorem fieldsByName_keys_nodup (t : GoType) :
    (alistKeys t.fieldsByName).Nodup := by
  have main : ∀ (fs : List StandardField) (acc : AList StandardField),
      (alistKeys acc).Nodup →
      (alistKeys (fs.foldl (fun m f => alistInsert m f.name f) acc)).Nodup := by
    intro fs
    induction fs with
    | nil => intro acc h; simpa using h
    | cons f rest ih =>
        intro acc h
        simp only [List.foldl_cons]
        exact ih _ (alistKeys_nodup_insert _ _ h)
  exact main t.fields [] (by simp [alistKeys])

/-! ## Lemmas: characterization of Parse -/

theorem parseFields_t (attrs : AList Value) (fs : List (String × StandardField)) (r : Record) :
    (parseFields attrs fs r).t = r.t := by
  induction fs generalizing r with
  | nil => rfl
  | cons p rest ih =>
      obtain ⟨k, f⟩ := p
      show (parseFields attrs ((k, f) :: rest) r).t = r.t
      rw [parseFields]
      rcases hcv : f.ConvertValue (goIndex attrs f.name) with ⟨v, err⟩
      cases err <;> simp [hcv, ih]

theorem parseFields_original (attrs : AList Value) (fs : List (String × StandardField)) (r : Record) :
    (parseFields attrs fs r).original = r.original := by
  induction fs generalizing r with
  | nil => rfl
  | cons p rest ih =>
      obtain ⟨k, f⟩ := p
      rw [parseFields]
      rcases hcv : f.ConvertValue (goIndex attrs f.name) with ⟨v, err⟩
      cases err <;> simp [hcv, ih]

theorem parseFields_converted_lookup (attrs : AList Value) (fs : List (String × StandardField))
    (hnd : (alistKeys fs).Nodup) (hkn : ∀ p ∈ fs, p.1 = p.2.name) (r : Record) (s : String) :
    alistLookup (parseFields attrs fs r).converted s =
      match alistLookup fs s with
      | some f =>
          match f.ConvertValue (goIndex attrs s) with
          | (v, none) => some v
          | (_, some _) => alistLookup r.converted s
      | none => alistLookup r.converted s := by
  induction fs generalizing r with
  | nil => simp [parseFields, alistLookup]
  | cons p rest ih =>
      obtain ⟨k, f⟩ := p
      rw [alistKeys_cons, List.nodup_cons] at hnd
      have hname : k = f.name := hkn (k, f) (List.mem_cons_self _ _)
      have hkrest : ∀ p ∈ rest, p.1 = p.2.name := fun p hp => hkn p (List.mem_cons_of_mem _ hp)
      rw [parseFields]
      rcases hcv : f.ConvertValue (goIndex attrs f.name) with ⟨v, err⟩
      by_cases hs : k = s
      · subst hs
        have hnone : alistLookup rest k = none :=
          (alistLookup_eq_none_iff rest k).mpr hnd.1
        cases err with
        | none =>
            simp only []
            rw [ih hnd.2 hkrest, hnone, hname]
            simp [alistLookup, alistLookup_insert, hcv]
        | some e =>
            simp only []
            rw [ih hnd.2 hkrest, hnone, hname]
            simp [alistLookup, hcv]
      · have hfs : f.name ≠ s := hname ▸ hs
        have hlook : alistLookup ((k, f) :: rest) s = alistLookup rest s := by
          simp [alistLookup, hs]
        cases err with
        | none =>
            simp only []
            rw [ih hnd.2 hkrest, hlook]
            cases hrest : alistLookup rest s with
            | none => simp [alistLookup_insert, hfs]
            | some f' =>
                rcases hcv2 : f'.ConvertValue (goIndex attrs s) with ⟨w, werr⟩
                cases werr with
                | none => simp [hcv2]
                | some e2 => simp [hcv2, alistLookup_insert, hfs]
        | some e =>
            simp only []
            rw [ih hnd.2 hkrest, hlook]

theorem parseFields_errors_lookup (attrs : AList Value) (fs : List (String × StandardField))
    (hnd : (alistKeys fs).Nodup) (hkn : ∀ p ∈ fs, p.1 = p.2.name) (r : Record) (s : String) :
    alistLookup (parseFields attrs fs r).errors s =
      match alistLookup fs s with
      | some f =>
          match f.ConvertValue (goIndex attrs s) with
          | (_, some e) => some e
          | (_, none) => alistLookup r.errors s
      | none => alistLookup r.errors s := by
  induction fs generalizing r with
  | nil => simp [parseFields, alistLookup]
  | cons p rest ih =>
      obtain ⟨k, f⟩ := p
      rw [alistKeys_cons, List.nodup_cons] at hnd
      have hname : k = f.name := hkn (k, f) (List.mem_cons_self _ _)
      have hkrest : ∀ p ∈ rest, p.1 = p.2.name := fun p hp => hkn p (List.mem_cons_of_mem _ hp)
      rw [parseFields]
      rcases hcv : f.ConvertValue (goIndex attrs f.name) with ⟨v, err⟩
      by_cases hs : k = s
      · subst hs
        have hnone : alistLookup rest k = none :=
          (alistLookup_eq_none_iff rest k).mpr hnd.1
        cases err with
        | none =>
            simp only []
            rw [ih hnd.2 hkrest, hnone, hname]
            simp [alistLookup, hcv]
        | some e =>
            simp only []
            rw [ih hnd.2 hkrest, hnone, hname]
            simp [alistLookup, alistLookup_insert, hcv]
      · have hfs : f.name ≠ s := hname ▸ hs
        have hlook : alistLookup ((k, f) :: rest) s = alistLookup rest s := by
          simp [alistLookup, hs]
        cases err with
        | none =>
            simp only []
            rw [ih hnd.2 hkrest, hlook]
        | some e =>
            simp only []
            rw [ih hnd.2 hkrest, hlook]
            cases hrest : alistLookup rest s with
            | none => simp [alistLookup_insert, hfs]
            | some f' =>
                rcases hcv2 : f'.ConvertValue (goIndex attrs s) with ⟨w, werr⟩
                cases werr with
                | none => simp [hcv2, alistLookup_insert, hfs]
                | some e2 => simp [hcv2]

theorem Parse_converted_lookup (t : GoType) (attrs : AList Value) (s : String) :
    alistLookup (t.Parse attrs).converted s =
      match alistLookup t.fieldsByName s with
      | some f =>
          match f.ConvertValue (goIndex attrs s) with
          | (v, none) => some v
          | (_, some _) => none
      | none => none := by
  rw [GoType.Parse, parseFields_converted_lookup attrs t.fieldsByName
    (fieldsByName_keys_nodup t) (fieldsByName_key_eq_name t)]
  rcases alistLookup t.fieldsByName s with _ | f
  · rfl
  · rcases hcv : f.ConvertValue (goIndex attrs s) with ⟨v, err⟩
    cases err <;> simp [alistLookup]

theorem Parse_errors_lookup (t : GoType) (attrs : AList Value) (s : String) :
    alistLookup (t.Parse attrs).errors s =
      match alistLookup t.fieldsByName s with
      | some f =>
          match f.ConvertValue (goIndex attrs s) with
          | (_, some e) => some e
          | (_, none) => none
      | none => none := by
  rw [GoType.Parse, parseFields_errors_lookup attrs t.fieldsByName
    (fieldsByName_keys_nodup t) (fieldsByName_key_eq_name t)]
  rcases alistLookup t.fieldsByName s with _ | f
  · rfl
  · rcases hcv : f.ConvertValue (goIndex attrs s) with ⟨v, err⟩
    cases err <;> simp [alistLookup]

theorem Parse_t (t : GoType) (attrs : AList Value) : (t.Parse attrs).t = t := by
  rw [GoType.Parse, parseFields_t]

theorem Parse_original (t : GoType) (attrs : AList Value) : (t.Parse attrs).original = attrs := by
  rw [GoType.Parse, parseFields_original]

/-- The first converter of a chain to fail determines the chain's result; the
converters after it are not consulted. -/
theorem convertSlice_append_error (cs₁ : List ValueConverter) (v v₁ v' : Value)
    (c : ValueConverter) (cs₂ : List ValueConverter) (e : GoError)
    (h1 : convertSlice v cs₁ = (v₁, none)) (h2 : c v₁ = (v', some e)) :
    convertSlice v (cs₁ ++ c :: cs₂) = (v', some e) := by
  induction cs₁ generalizing v with
  | nil =>
      obtain ⟨hv, -⟩ := Prod.mk.inj_iff.mp h1
      subst hv
      simp [convertSlice, h2]
  | cons c0 rest ih =>
      rw [convertSlice] at h1
      rw [List.cons_append, convertSlice]
      rcases hc0 : c0 v with ⟨w, werr⟩
      rw [hc0] at h1
      cases werr with
      | none => exact ih w h1
      | some e0 => simp at h1

/-! ## Claim C1 -/

/-- C1: for every declared field, Type.Parse feeds the raw looked-up value
(nil when the key is absent, which is what Go map indexing yields) through
the field's converters in order; the first converter to return an error
short-circuits the chain — the converters after it are not applied — and
that error becomes the field's entry in the errors map; if no converter
errs, the final value becomes the field's converted value. -/
theorem parse_chain_composition (t : GoType) (f : StandardField) (m : AList Value)
    (hf : alistLookup t.fieldsByName f.name = some f) :
    (∀ cs₁ c cs₂ v₁ v' e, f.valueConverters = cs₁ ++ c :: cs₂ →
        convertSlice (goIndex m f.name) cs₁ = (v₁, none) →
        c v₁ = (v', some e) →
        alistLookup (t.Parse m).errors f.name = some e ∧
        alistLookup (t.Parse m).converted f.name = none) ∧
    (∀ v, convertSlice (goIndex m f.name) f.valueConverters = (v, none) →
        alistLookup (t.Parse m).converted f.name = some v ∧
        alistLookup (t.Parse m).errors f.name = none) := by
  constructor
  · intro cs₁ c cs₂ v₁ v' e hchain h1 h2
    have hcv : f.ConvertValue (goIndex m f.name) = (v', some e) := by
      rw [StandardField.ConvertValue, hchain]
      exact convertSlice_append_error cs₁ _ _ _ c cs₂ e h1 h2
    constructor
    · rw [Parse_errors_lookup, hf]
      simp [hcv]
    · rw [Parse_converted_lookup, hf]
      simp [hcv]
  · intro v hv
    have hcv : f.ConvertValue (goIndex m f.name) = (v, none) := hv
    constructor
    · rw [Parse_converted_lookup, hf]
      simp [hcv]
    · rw [Parse_errors_lookup, hf]
      simp [hcv]

/-- Witness for C1: a field "a" with chain [Require, Int64] on an input
where "a" is absent; Require fails first and Int64 is never consulted, and
the Require error is keyed under "a". -/
theorem parse_chain_composition_witness :
    alistLookup (GoType.fieldsByName ⟨[⟨"a", [requireConvert, int64Convert]⟩]⟩) "a" =
      some ⟨"a", [requireConvert, int64Convert]⟩ ∧
    alistLookup ((GoType.Parse ⟨[⟨"a", [requireConvert, int64Convert]⟩]⟩) []).errors "a" =
      some (.msg "cannot be nil or empty") ∧
    alistLookup ((GoType.Parse ⟨[⟨"a", [requireConvert, int64Convert]⟩]⟩) []).converted "a" =
      none := by
  have h := (parse_chain_composition ⟨[⟨"a", [requireConvert, int64Convert]⟩]⟩
    ⟨"a", [requireConvert, int64Convert]⟩ [] rfl).1
    [] requireConvert [int64Convert] .vnil .vnil (.msg "cannot be nil or empty") rfl rfl rfl
  exact ⟨rfl, h.1, h.2⟩

/-! ## Claim C2 -/

/-- C2: in the Record returned by Parse, each declared field name appears in
exactly one of the converted and errors maps — in converted iff its chain
produced no error, in errors iff some converter errored; never both, never
neither. -/
theorem parse_field_partition (t : GoType) (m : AList Value) (s : String) (f : StandardField)
    (hf : alistLookup t.fieldsByName s = some f) :
    ((alistLookup (t.Parse m).converted s).isSome ↔
        (f.ConvertValue (goIndex m s)).2 = none) ∧
    ((alistLookup (t.Parse m).errors s).isSome ↔
        (f.ConvertValue (goIndex m s)).2 ≠ none) ∧
    ¬((alistLookup (t.Parse m).converted s).isSome ∧
        (alistLookup (t.Parse m).errors s).isSome) ∧
    ((alistLookup (t.Parse m).converted s).isSome ∨
        (alistLookup (t.Parse m).errors s).isSome) := by
  rw [Parse_converted_lookup, Parse_errors_lookup, hf]
  rcases hcv : f.ConvertValue (goIndex m s) with ⟨v, err⟩
  cases err <;> simp [hcv]

/-- Witness for C2, applied to a two-field type where "a" converts and "b"
fails: "a" is in converted and not in errors. -/
theorem parse_field_partition_witness :
    alistLookup (GoType.fieldsByName ⟨[⟨"a", [int64Convert]⟩, ⟨"b", [requireConvert]⟩]⟩) "a" =
      some ⟨"a", [int64Convert]⟩ ∧
    ((alistLookup ((GoType.Parse ⟨[⟨"a", [int64Convert]⟩, ⟨"b", [requireConvert]⟩]⟩)
        [("a", Value.vstr (gs "7"))]).converted "a").isSome ∨
      (alistLookup ((GoType.Parse ⟨[⟨"a", [int64Convert]⟩, ⟨"b", [requireConvert]⟩]⟩)
        [("a", Value.vstr (gs "7"))]).errors "a").isSome) := by
  refine ⟨rfl, ?_⟩
  have h := parse_field_partition ⟨[⟨"a", [int64Convert]⟩, ⟨"b", [requireConvert]⟩]⟩
    [("a", Value.vstr (gs "7"))] "a" ⟨"a", [int64Convert]⟩ rfl
  exact h.2.2.2

/-! ## Claim C3 -/

/-- C3: a field whose chain starts with Require errors (keyed under the
field) whenever the raw value is absent, nil, or the empty string; on every
other value — including numeric zero and false — Require itself produces no
error and passes the value through unchanged. -/
theorem require_rejects (t : GoType) (f : StandardField) (m : AList Value)
    (rest : List ValueConverter)
    (hf : alistLookup t.fieldsByName f.name = some f)
    (hchain : f.valueConverters = requireConvert :: rest)
    (hraw : alistLookup m f.name = none ∨ alistLookup m f.name = some .vnil ∨
        alistLookup m f.name = some (.vstr [])) :
    alistLookup (t.Parse m).errors f.name = some (.msg "cannot be nil or empty") ∧
    alistLookup (t.Parse m).converted f.name = none ∧
    (∀ v : Value, v ≠ .vnil → v ≠ .vstr [] → requireConvert v = (v, none)) := by
  have hreq : requireConvert (goIndex m f.name) = (.vnil, some (.msg "cannot be nil or empty")) := by
    rcases hraw with h | h | h <;> rw [goIndex, h] <;> rfl
  have h := (parse_chain_composition t f m hf).1 [] requireConvert rest
    (goIndex m f.name) .vnil (.msg "cannot be nil or empty") hchain rfl hreq
  refine ⟨h.1, h.2, ?_⟩
  intro v h1 h2
  cases v with
  | vnil => exact absurd rfl h1
  | vstr s =>
      cases s with
      | nil => exact absurd rfl h2
      | cons c cs => rfl
  | vundef => rfl
  | vbool b => rfl
  | vbytes bs => rfl
  | vint8 n => rfl
  | vuint8 n => rfl
  | vint16 n => rfl
  | vuint16 n => rfl
  | vint32 n => rfl
  | vuint32 n => rfl
  | vint64 n => rfl
  | vuint64 n => rfl
  | vint n => rfl
  | vuint n => rfl
  | vfloat32 q => rfl
  | vfloat64 q => rfl
  | vlist xs => rfl

/-- Witness for C3: the spec's scenario — a required field "name" with the
input key misspelled, so the value is absent; the error lands under "name".
Zero and false pass Require unchanged. -/
theorem require_rejects_witness :
    alistLookup ((GoType.Parse ⟨[⟨"name", [requireConvert]⟩]⟩)
      [("misspelled", Value.vstr (gs "adam"))]).errors "name" =
      some (.msg "cannot be nil or empty") ∧
    requireConvert (Value.vint64 0) = (Value.vint64 0, none) ∧
    requireConvert (Value.vbool false) = (Value.vbool false, none) := by
  have h := require_rejects ⟨[⟨"name", [requireConvert]⟩]⟩ ⟨"name", [requireConvert]⟩
    [("misspelled", Value.vstr (gs "adam"))] [] rfl rfl (Or.inl rfl)
  exact ⟨h.1, h.2.2 (Value.vint64 0) (fun hc => Value.noConfusion hc)
      (fun hc => Value.noConfusion hc),
    h.2.2 (Value.vbool false) (fun hc => Value.noConfusion hc)
      (fun hc => Value.noConfusion hc)⟩

/-! ## Claim C4 -/

/-- Every element whose conversion fails contributes its index and error to
the element-error list, wherever the element sits and regardless of other
elements' failures. -/
theorem sliceLoop_mem_of_err (isT : Value → Bool) (zeroT : Value) (conv : ValueConverter) :
    ∀ (xs : List Value) (i k : Nat) (x v' : Value) (e : GoError),
      xs.get? k = some x → conv x = (v', some e) →
      (i + k, some e) ∈ (sliceLoop isT zeroT conv xs i).2 := by
  intro xs
  induction xs with
  | nil => intro i k x v' e hget; simp at hget
  | cons x0 rest ih =>
      intro i k x v' e hget hconv
      cases k with
      | zero =>
          simp at hget
          subst hget
          rw [sliceLoop, hconv]
          simp
      | succ k' =>
          simp at hget
          have hmem := ih (i + 1) k' x v' e (by simpa using hget) hconv
          rw [sliceLoop]
          rcases hp : conv x0 with ⟨w, werr⟩
          have harith : i + (k' + 1) = i + 1 + k' := by omega
          rw [harith]
          cases werr <;> by_cases hw : isT w <;>
            simp [hw, List.mem_append, hmem]

/-- C4: applied to an N-element []any, the Slice converter attempts every
element; if element k fails its element conversion, the whole conversion
fails with a composite sliceElementErrors value containing index k paired
with that element's error — when several elements fail, each failing index
appears with its error. -/
theorem slice_reports_all_failing_indices
    (isSliceT isT : Value → Bool) (zeroT : Value) (conv : ValueConverter)
    (xs : List Value) (hns : isSliceT (.vlist xs) = false) :
    ∀ k x v' e, xs.get? k = some x → conv x = (v', some e) →
      ∃ es, sliceConvert isSliceT isT zeroT conv (.vlist xs) =
          (.vnil, some (.sliceElems es)) ∧ (k, some e) ∈ es := by
  intro k x v' e hget hconv
  have hmem : (k, some e) ∈ (sliceLoop isT zeroT conv xs 0).2 := by
    simpa using sliceLoop_mem_of_err isT zeroT conv xs 0 k x v' e hget hconv
  refine ⟨(sliceLoop isT zeroT conv xs 0).2, ?_, hmem⟩
  have hne : (sliceLoop isT zeroT conv xs 0).2 ≠ [] := List.ne_nil_of_mem hmem
  rw [show sliceConvert isSliceT isT zeroT conv (.vlist xs) =
      (if isSliceT (.vlist xs) then ((.vlist xs : Value), (none : Option GoError))
       else
         let p := sliceLoop isT zeroT conv xs 0
         if p.2.isEmpty then (.vlist p.1, none) else (.vnil, some (.sliceElems p.2)))
    from rfl]
  rw [hns]
  simp only [if_false, Bool.false_eq_true]
  have hie : (sliceLoop isT zeroT conv xs 0).2.isEmpty = false := by
    cases hl : (sliceLoop isT zeroT conv xs 0).2 with
    | nil => exact absurd hl hne
    | cons a l => rfl
  simp [hie]

/-- Witness for C4: converting ["abc", "1", "def"] with the Int32 element
converter; elements 0 and 2 both fail and both indices appear in the
composite error. -/
theorem slice_reports_all_failing_indices_witness :
    (∃ es, sliceConvert (fun _ => false)
        (fun v => match v with | .vint32 _ => true | _ => false) (.vint32 0) int32Convert
        (.vlist [.vstr (gs "abc"), .vstr (gs "1"), .vstr (gs "def")]) =
        (.vnil, some (.sliceElems es)) ∧ (0, some (.msg "not a valid number")) ∈ es) ∧
    (∃ es, sliceConvert (fun _ => false)
        (fun v => match v with | .vint32 _ => true | _ => false) (.vint32 0) int32Convert
        (.vlist [.vstr (gs "abc"), .vstr (gs "1"), .vstr (gs "def")]) =
        (.vnil, some (.sliceElems es)) ∧ (2, some (.msg "not a valid number")) ∈ es) := by
  constructor
  · exact slice_reports_all_failing_indices (fun _ => false)
      (fun v => match v with | .vint32 _ => true | _ => false) (.vint32 0) int32Convert
      [.vstr (gs "abc"), .vstr (gs "1"), .vstr (gs "def")] rfl
      0 (.vstr (gs "abc")) .vnil (.msg "not a valid number") rfl rfl
  · exact slice_reports_all_failing_indices (fun _ => false)
      (fun v => match v with | .vint32 _ => true | _ => false) (.vint32 0) int32Convert
      [.vstr (gs "abc"), .vstr (gs "1"), .vstr (gs "def")] rfl
      2 (.vstr (gs "def")) .vnil (.msg "not a valid number") rfl rfl

/-! ## Claim C6 -/

/-- Parse only consults the input map through indexing, so two maps that
index identically produce identical converted and errors maps. -/
theorem parseFields_congr (attrs₁ attrs₂ : AList Value)
    (h : ∀ s, goIndex attrs₁ s = goIndex attrs₂ s) :
    ∀ (fs : List (String × StandardField)) (r₁ r₂ : Record),
      r₁.converted = r₂.converted → r₁.errors = r₂.errors →
      (parseFields attrs₁ fs r₁).converted = (parseFields attrs₂ fs r₂).converted ∧
      (parseFields attrs₁ fs r₁).errors = (parseFields attrs₂ fs r₂).errors := by
  intro fs
  induction fs with
  | nil => intro r₁ r₂ hc he; exact ⟨hc, he⟩
  | cons p rest ih =>
      intro r₁ r₂ hc he
      obtain ⟨k, f⟩ := p
      rw [parseFields, parseFields, ← h f.name]
      rcases hcv : f.ConvertValue (goIndex attrs₁ f.name) with ⟨v, err⟩
      cases err with
      | none => exact ih _ _ (by simp [hc]) (by simp [he])
      | some e => exact ih _ _ (by simp [hc]) (by simp [he])

/-- Indexing does not see the difference between an erased key and the same
key bound to nil. -/
theorem goIndex_erase_insert_nil (m : AList Value) (k : String) (s : String) :
    goIndex (alistErase m k) s = goIndex (alistInsert (alistErase m k) k .vnil) s := by
  rw [goIndex, goIndex, alistLookup_insert]
  by_cases h : k = s
  · rw [if_pos h, alistLookup_erase, if_pos h]
    rfl
  · rw [if_neg h]

/-- mp's Type.Parse cannot distinguish an absent key from a key explicitly
bound to nil — for every Type, input map and key, parsing the map without
the key and parsing it with the key bound to nil produce identical
converted maps and identical errors maps. This refutes the claimed
existence of a Type whose Parse tells the two inputs apart by a converted
value or an error. -/
theorem parse_absent_nil_indistinguishable (t : GoType) (m : AList Value) (k : String) :
    (t.Parse (alistErase m k)).converted =
      (t.Parse (alistInsert (alistErase m k) k .vnil)).converted ∧
    (t.Parse (alistErase m k)).errors =
      (t.Parse (alistInsert (alistErase m k) k .vnil)).errors := by
  rw [GoType.Parse, GoType.Parse]
  exact parseFields_congr _ _ (goIndex_erase_insert_nil m k) t.fieldsByName _ _ rfl rfl

/-- C6 counterexample: at the concrete types the claim is motivated by —
a required field, and an Int64 field — mp's Type.Parse produces the same
converted map and the same errors map whether the field's key is omitted or
bound to nil: the two inputs are not distinguished (the general statement,
for every Type and input, is the first conjunct of the amended theorem). -/
theorem parse_absent_nil_same_record :
    ((GoType.Parse ⟨[⟨"name", [requireConvert]⟩]⟩ []).converted =
      (GoType.Parse ⟨[⟨"name", [requireConvert]⟩]⟩ [("name", Value.vnil)]).converted) ∧
    ((GoType.Parse ⟨[⟨"name", [requireConvert]⟩]⟩ []).errors =
      (GoType.Parse ⟨[⟨"name", [requireConvert]⟩]⟩ [("name", Value.vnil)]).errors) ∧
    ((GoType.Parse ⟨[⟨"a", [int64Convert]⟩]⟩ []).converted =
      (GoType.Parse ⟨[⟨"a", [int64Convert]⟩]⟩ [("a", Value.vnil)]).converted) ∧
    ((GoType.Parse ⟨[⟨"a", [int64Convert]⟩]⟩ []).errors =
      (GoType.Parse ⟨[⟨"a", [int64Convert]⟩]⟩ [("a", Value.vnil)]).errors) :=
  ⟨rfl, rfl, rfl, rfl⟩

/-- C6 amended: the mp parser does not represent undefined: Type.Parse maps
an absent key to nil, so omitting a key and binding it to nil yield
identical converted and errors maps (only the retained original map
differs). The distinction exists in the repository's older flex variant:
flex Type.New substitutes UndefinedValue for absent keys and omits
undefined results from converted, so a flex Type with one converter-less
field produces different converted maps for the two inputs. -/
theorem undefined_vs_nil_amended :
    (∀ (t : GoType) (m : AList Value) (k : String),
        (t.Parse (alistErase m k)).converted =
          (t.Parse (alistInsert (alistErase m k) k .vnil)).converted ∧
        (t.Parse (alistErase m k)).errors =
          (t.Parse (alistInsert (alistErase m k) k .vnil)).errors ∧
        (t.Parse (alistErase m k)).original = alistErase m k) ∧
    (FlexType.New ⟨[("a", ⟨"a", []⟩)]⟩ []).converted = [] ∧
    (FlexType.New ⟨[("a", ⟨"a", []⟩)]⟩ [("a", .vnil)]).converted = [("a", .vnil)] ∧
    ([] : AList Value) ≠ [("a", Value.vnil)] := by
  refine ⟨?_, rfl, rfl, fun h => List.noConfusion h⟩
  intro t m k
  obtain ⟨hc, he⟩ := parse_absent_nil_indistinguishable t m k
  exact ⟨hc, he, Parse_original t _⟩

/-! ## Claim C7 -/

/-- Pick walks its arguments in order and panics at the first undeclared
one. -/
theorem pickLoop_error (r : Record) (s : String)
    (hs : alistLookup r.t.fieldsByName s = none) :
    ∀ (pre : List String) (post : List String) (acc : AList Value),
      (∀ x ∈ pre, (alistLookup r.t.fieldsByName x).isSome) →
      pickLoop r (pre ++ s :: post) acc = .error (notFieldMsg s) := by
  intro pre
  induction pre with
  | nil =>
      intro post acc _
      rw [List.nil_append, pickLoop, hs]
  | cons k pre' ih =>
      intro post acc hdecl
      have hk : (alistLookup r.t.fieldsByName k).isSome :=
        hdecl k (List.mem_cons_self _ _)
      rcases hkf : alistLookup r.t.fieldsByName k with _ | f
      · rw [hkf] at hk; simp at hk
      · rw [List.cons_append, pickLoop, hkf]
        have hrest : ∀ x ∈ pre', (alistLookup r.t.fieldsByName x).isSome :=
          fun x hx => hdecl x (List.mem_cons_of_mem _ hx)
        rcases alistLookup r.converted k with _ | v
        · exact ih post acc hrest
        · exact ih post _ hrest

/-- Pick never panics when every argument is declared. -/
theorem pickLoop_ok (r : Record) :
    ∀ (keys : List String) (acc : AList Value),
      (∀ x ∈ keys, (alistLookup r.t.fieldsByName x).isSome) →
      ∃ mm, pickLoop r keys acc = .ok mm := by
  intro keys
  induction keys with
  | nil => intro acc _; exact ⟨acc, rfl⟩
  | cons k rest ih =>
      intro acc hdecl
      have hk : (alistLookup r.t.fieldsByName k).isSome :=
        hdecl k (List.mem_cons_self _ _)
      rcases hkf : alistLookup r.t.fieldsByName k with _ | f
      · rw [hkf] at hk; simp at hk
      · rw [pickLoop, hkf]
        have hrest : ∀ x ∈ rest, (alistLookup r.t.fieldsByName x).isSome :=
          fun x hx => hdecl x (List.mem_cons_of_mem _ hx)
        rcases alistLookup r.converted k with _ | v
        · exact ih acc hrest
        · exact ih _ hrest

/-- C7 counterexample: Pick aborts at the first undeclared argument; on a
type whose only field is "a", Pick ["y", "z"] panics with the message
identifying "y" — not the message identifying "z", though "z" is among the
arguments — so the claim that a Pick whose arguments include an undeclared
s panics with a message identifying s fails for s = "z". -/
theorem pick_identifies_first_undeclared_only :
    (GoType.Parse ⟨[⟨"a", []⟩]⟩ []).Pick ["y", "z"] = .error (notFieldMsg "y") ∧
    notFieldMsg "y" ≠ notFieldMsg "z" := by
  exact ⟨rfl, by decide⟩

/-- C7 amended: Get on an undeclared name always panics with the message
identifying that name; Pick panics at the first undeclared argument, with
the message identifying that argument (so when s is the first undeclared
argument, s is identified); Get and Pick never panic on declared names,
whether or not the fields converted successfully. -/
theorem get_pick_declared_amended (t : GoType) (m : AList Value) (s : String)
    (hs : alistLookup t.fieldsByName s = none) :
    ((t.Parse m).Get s = .error (notFieldMsg s)) ∧
    (∀ pre post, (∀ x ∈ pre, (alistLookup t.fieldsByName x).isSome) →
        (t.Parse m).Pick (pre ++ s :: post) = .error (notFieldMsg s)) ∧
    (∀ x, (alistLookup t.fieldsByName x).isSome →
        ∃ v, (t.Parse m).Get x = .ok v) ∧
    (∀ keys, (∀ x ∈ keys, (alistLookup t.fieldsByName x).isSome) →
        ∃ mm, (t.Parse m).Pick keys = .ok mm) := by
  have ht : (t.Parse m).t = t := Parse_t t m
  refine ⟨?_, ?_, ?_, ?_⟩
  · rw [Record.Get, ht, hs]
  · intro pre post hdecl
    exact pickLoop_error (t.Parse m) s (by rw [ht]; exact hs) pre post []
      (by rw [ht]; exact hdecl)
  · intro x hx
    rcases hxf : alistLookup t.fieldsByName x with _ | f
    · rw [hxf] at hx; simp at hx
    · exact ⟨goIndex (t.Parse m).converted x, by rw [Record.Get, ht, hxf]⟩
  · intro keys hdecl
    exact pickLoop_ok (t.Parse m) keys [] (by rw [ht]; exact hdecl)

/-- Witness for the amended C7: a type with fields "a" and "b"; Get and
Pick on "z" after the declared names panic identifying "z", and all-declared
accesses never panic. -/
theorem get_pick_declared_amended_witness :
    ((GoType.Parse ⟨[⟨"a", []⟩, ⟨"b", []⟩]⟩ []).Get "z" = .error (notFieldMsg "z")) ∧
    ((GoType.Parse ⟨[⟨"a", []⟩, ⟨"b", []⟩]⟩ []).Pick ["a", "b", "z"] =
      .error (notFieldMsg "z")) ∧
    (∃ mm, (GoType.Parse ⟨[⟨"a", []⟩, ⟨"b", []⟩]⟩ []).Pick ["a", "b"] = .ok mm) := by
  have h := get_pick_declared_amended ⟨[⟨"a", []⟩, ⟨"b", []⟩]⟩ [] "z" rfl
  refine ⟨h.1, ?_, h.2.2.2 ["a", "b"] (by decide)⟩
  exact h.2.1 ["a", "b"] [] (by decide)

/-! ## Claim C9 -/

/-- Right trim: the decomposition goTrimSpace s =
goTrimRight (s.dropWhile goChIsSpace) used by the idempotence proofs. -/
def goTrimRight (s : GoStr) : GoStr :=
  (s.reverse.dropWhile goChIsSpace).reverse

theorem goTrimSpace_eq (s : GoStr) :
    goTrimSpace s = goTrimRight (s.dropWhile goChIsSpace) := rfl

theorem dropWhile_dropWhile_self {α : Type} (p : α → Bool) (l : List α) :
    (l.dropWhile p).dropWhile p = l.dropWhile p := by
  induction l with
  | nil => rfl
  | cons a l ih =>
      by_cases h : p a
      · simp [List.dropWhile, h, ih]
      · simp [List.dropWhile, h]

theorem dropWhile_suffix {α : Type} (p : α → Bool) (l : List α) :
    l.dropWhile p <:+ l := by
  induction l with
  | nil => exact List.suffix_refl _
  | cons a l ih =>
      by_cases h : p a
      · simp only [List.dropWhile, h]
        exact ih.trans (List.suffix_cons a l)
      · simp only [List.dropWhile, h]
        exact List.suffix_refl _

theorem eq_nil_or_head_false_of_dropWhile_eq_self {α : Type} (p : α → Bool) (l : List α)
    (h : l.dropWhile p = l) : l = [] ∨ ∃ a l', l = a :: l' ∧ p a = false := by
  cases l with
  | nil => exact Or.inl rfl
  | cons a l' =>
      by_cases ha : p a
      · exfalso
        rw [List.dropWhile_cons, if_pos ha] at h
        have hlen : (l'.dropWhile p).length ≤ l'.length := (List.dropWhile_sublist _).length_le
        rw [h] at hlen
        simp at hlen
      · exact Or.inr ⟨a, l', rfl, by simpa using ha⟩

theorem dropWhile_eq_self_of_front {α : Type} (p : α → Bool) {l t : List α}
    (hl : l.dropWhile p = l) (ht : t <+: l) : t.dropWhile p = t := by
  rcases eq_nil_or_head_false_of_dropWhile_eq_self p l hl with h | ⟨a, l', hcons, hpa⟩
  · subst h
    obtain ⟨u, hu⟩ := ht
    rw [(List.append_eq_nil.mp hu).1]
    rfl
  · subst hcons
    cases t with
    | nil => rfl
    | cons b t' =>
        obtain ⟨u, hu⟩ := ht
        have hb : b = a := by
          have := congrArg List.head? hu
          simpa using this
        subst hb
        rw [List.dropWhile_cons, if_neg (by simp [hpa])]

theorem goTrimRight_front (s : GoStr) : goTrimRight s <+: s := by
  rw [goTrimRight]
  obtain ⟨t, ht⟩ := dropWhile_suffix goChIsSpace s.reverse
  exact ⟨t.reverse, by rw [← List.reverse_append, ht, List.reverse_reverse]⟩

theorem goTrimRight_idem (s : GoStr) : goTrimRight (goTrimRight s) = goTrimRight s := by
  rw [goTrimRight, goTrimRight]
  rw [List.reverse_reverse, dropWhile_dropWhile_self]

theorem dropWhile_goTrimRight (s : GoStr) (h : s.dropWhile goChIsSpace = s) :
    (goTrimRight s).dropWhile goChIsSpace = goTrimRight s :=
  dropWhile_eq_self_of_front goChIsSpace h (goTrimRight_front s)

theorem goTrimSpace_idem (s : GoStr) : goTrimSpace (goTrimSpace s) = goTrimSpace s := by
  rw [goTrimSpace_eq s, goTrimSpace_eq]
  rw [dropWhile_goTrimRight _ (dropWhile_dropWhile_self goChIsSpace s)]
  exact goTrimRight_idem _

/-- Only valid runes survive the map step. -/
theorem mem_goStrMap (f : Rune → Rune) (s : GoStr) (c : GoChar) (h : c ∈ goStrMap f s) :
    ∃ r, c = .rune (f r) := by
  rw [goStrMap] at h
  obtain ⟨a, -, ha⟩ := List.mem_map.mp h
  cases a with
  | rune r => exact ⟨r, ha.symm⟩
  | bad b => exact ⟨0xFFFD, ha.symm⟩

theorem mem_goTrimSpace (s : GoStr) (c : GoChar) (h : c ∈ goTrimSpace s) : c ∈ s := by
  rw [goTrimSpace] at h
  rw [List.mem_reverse] at h
  have h1 := (dropWhile_suffix goChIsSpace _).mem h
  rw [List.mem_reverse] at h1
  exact (dropWhile_suffix goChIsSpace s).mem h1

theorem goToValidUTF8_eq_self (s : GoStr) (h : ∀ c ∈ s, ∃ r, c = GoChar.rune r) :
    goToValidUTF8 s = s := by
  induction s with
  | nil => rfl
  | cons a l ih =>
      obtain ⟨r, hr⟩ := h a (List.mem_cons_self _ _)
      subst hr
      rw [goToValidUTF8, List.filterMap_cons]
      simp only []
      have ih2 := ih (fun c hc => h c (List.mem_cons_of_mem _ hc))
      rw [goToValidUTF8] at ih2
      rw [ih2]

theorem goStrMap_eq_self (f : Rune → Rune) (s : GoStr)
    (h : ∀ c ∈ s, ∃ r, c = GoChar.rune r ∧ f r = r) : goStrMap f s = s := by
  induction s with
  | nil => rfl
  | cons a l ih =>
      obtain ⟨r, hr, hfr⟩ := h a (List.mem_cons_self _ _)
      subst hr
      rw [goStrMap, List.map_cons]
      simp only [hfr]
      have ih2 := ih (fun c hc => h c (List.mem_cons_of_mem _ hc))
      rw [goStrMap] at ih2
      rw [ih2]

/-- C9: SingleLineString normalization — delete invalid UTF-8, replace
non-printable runes by an ASCII space, trim — is idempotent, for every
print classifier that accepts the ASCII space (as Go unicode.IsPrint does):
normalizing a normalized string changes nothing, and the converter applied
to its own output returns that output unchanged with no error. -/
theorem single_line_idempotent (isPrint : Rune → Bool) (hp : isPrint 32 = true) :
    (∀ s, singleLineNormalize isPrint (singleLineNormalize isPrint s) =
        singleLineNormalize isPrint s) ∧
    (∀ s, singleLineConvert isPrint (.vstr (singleLineNormalize isPrint s)) =
        (.vstr (singleLineNormalize isPrint s), none)) := by
  have gidem : ∀ r, (if isPrint (if isPrint r then r else 32) then (if isPrint r then r else 32)
      else 32) = (if isPrint r then r else 32) := by
    intro r
    by_cases h : isPrint r
    · simp [h]
    · simp [h, hp]
  have main : ∀ s, singleLineNormalize isPrint (singleLineNormalize isPrint s) =
      singleLineNormalize isPrint s := by
    intro s
    set g : Rune → Rune := fun r => if isPrint r then r else 32 with hgdef
    set t := singleLineNormalize isPrint s with htdef
    have hmem : ∀ c ∈ t, ∃ r, c = GoChar.rune (g r) := by
      intro c hc
      rw [htdef, singleLineNormalize] at hc
      exact mem_goStrMap g _ c (mem_goTrimSpace _ c hc)
    rw [singleLineNormalize]
    rw [goToValidUTF8_eq_self t (fun c hc => by
      obtain ⟨r, hr⟩ := hmem c hc
      exact ⟨g r, hr⟩)]
    rw [goStrMap_eq_self g t (fun c hc => by
      obtain ⟨r, hr⟩ := hmem c hc
      exact ⟨g r, hr, gidem r⟩)]
    rw [htdef, singleLineNormalize]
    exact goTrimSpace_idem _
  refine ⟨main, fun s => ?_⟩
  show (Value.vstr (singleLineNormalize isPrint (singleLineNormalize isPrint s)), none) =
    (Value.vstr (singleLineNormalize isPrint s), none)
  rw [main s]

/-- Witness for C9: the ASCII print classifier and the spec's scenario
string "a\r\n": one normalization yields "a" and a second changes
nothing. -/
theorem single_line_idempotent_witness :
    asciiIsPrint 32 = true ∧
    singleLineNormalize asciiIsPrint
      (singleLineNormalize asciiIsPrint (gs "a" ++ [GoChar.rune 13, GoChar.rune 10])) =
      singleLineNormalize asciiIsPrint (gs "a" ++ [GoChar.rune 13, GoChar.rune 10]) ∧
    singleLineNormalize asciiIsPrint (gs "a" ++ [GoChar.rune 13, GoChar.rune 10]) = gs "a" := by
  exact ⟨rfl, (single_line_idempotent asciiIsPrint rfl).1 _, rfl⟩

/-! ## Claim C10 -/

theorem HeapOf.read_write_ne {α : Type} (h : HeapOf α) (w r : Nat) (k : String) (v : α)
    (hne : r ≠ w) : (h.write w k v).read r = h.read r := by
  rw [HeapOf.write, HeapOf.read, HeapOf.read]
  simp only []
  rw [List.getElem?_set_ne (fun he => hne he.symm)]
  rfl

theorem HeapOf.read_write_self {α : Type} (h : HeapOf α) (w : Nat) (k : String) (v : α)
    (hw : w < h.maps.length) : (h.write w k v).read w = alistInsert (h.read w) k v := by
  rw [HeapOf.write, HeapOf.read, HeapOf.read]
  simp only []
  rw [List.getElem?_set_eq_of_lt _ hw]
  rfl

theorem HeapOf.write_length {α : Type} (h : HeapOf α) (w : Nat) (k : String) (v : α) :
    (h.write w k v).maps.length = h.maps.length := by
  rw [HeapOf.write]
  exact List.length_set _ _ _

/-- The field loop writes only through the converted and errors
references. -/
theorem parseFieldsH_frame (aR cR eR : Nat) :
    ∀ (fs : List (String × StandardField)) (hv : HeapOf Value) (he : HeapOf GoError),
      (∀ r, r ≠ cR → (parseFieldsH hv he aR cR eR fs).1.read r = hv.read r) ∧
      (∀ r, r ≠ eR → (parseFieldsH hv he aR cR eR fs).2.read r = he.read r) := by
  intro fs
  induction fs with
  | nil => intro hv he; exact ⟨fun r _ => rfl, fun r _ => rfl⟩
  | cons p rest ih =>
      intro hv he
      obtain ⟨k, f⟩ := p
      rw [parseFieldsH]
      rcases hcv : f.ConvertValue (goIndex (hv.read aR) f.name) with ⟨v, err⟩
      cases err with
      | none =>
          refine ⟨fun r hr => ?_, fun r hr => ?_⟩
          · rw [(ih _ _).1 r hr, HeapOf.read_write_ne _ _ _ _ _ hr]
          · rw [(ih _ _).2 r hr]
      | some e =>
          refine ⟨fun r hr => ?_, fun r hr => ?_⟩
          · rw [(ih _ _).1 r hr]
          · rw [(ih _ _).2 r hr, HeapOf.read_write_ne _ _ _ _ _ hr]

/-- The contents accumulated through the converted and errors references
are exactly what the pure field loop computes. -/
theorem parseFieldsH_content (aR cR eR : Nat) (hca : cR ≠ aR) :
    ∀ (fs : List (String × StandardField)) (hv : HeapOf Value) (he : HeapOf GoError)
      (R : Record),
      cR < hv.maps.length → eR < he.maps.length →
      R.converted = hv.read cR → R.errors = he.read eR →
      (parseFieldsH hv he aR cR eR fs).1.read cR =
        (parseFields (hv.read aR) fs R).converted ∧
      (parseFieldsH hv he aR cR eR fs).2.read eR =
        (parseFields (hv.read aR) fs R).errors := by
  intro fs
  induction fs with
  | nil =>
      intro hv he R _ _ hc hε
      exact ⟨hc.symm, hε.symm⟩
  | cons p rest ih =>
      intro hv he R hcl hel hc hε
      obtain ⟨k, f⟩ := p
      rw [parseFieldsH, parseFields]
      rcases hcv : f.ConvertValue (goIndex (hv.read aR) f.name) with ⟨v, err⟩
      cases err with
      | none =>
          have haread : (hv.write cR f.name v).read aR = hv.read aR :=
            HeapOf.read_write_ne hv cR aR f.name v (fun h => hca h.symm)
          have h := ih (hv.write cR f.name v) he
            { R with converted := alistInsert R.converted f.name v }
            (by rw [HeapOf.write_length]; exact hcl) hel
            (by rw [HeapOf.read_write_self hv cR f.name v hcl, hc]) hε
          rw [haread] at h
          exact h
      | some e =>
          have h := ih hv (he.write eR f.name e)
            { R with errors := alistInsert R.errors f.name e }
            hcl (by rw [HeapOf.write_length]; exact hel) hc
            (by rw [HeapOf.read_write_self he eR f.name e hel, hε])
          exact h

/-- C10: Parse, run against an explicit store of map objects, never writes
to its argument map (nor to any other pre-existing map): every pre-existing
reference reads back unchanged, binding for binding. The record's original
is the argument map itself, its converted and errors maps are freshly
allocated (their references did not exist before the call), and their final
contents are exactly what the pure Parse embedding computes. -/
theorem parse_frame (t : GoType) (hv : HeapOf Value) (he : HeapOf GoError) (aR : Nat)
    (ha : aR < hv.maps.length) :
    (∀ r, r < hv.maps.length → (parseH t hv he aR).1.read r = hv.read r) ∧
    (∀ r, r < he.maps.length → (parseH t hv he aR).2.1.read r = he.read r) ∧
    (parseH t hv he aR).2.2.originalRef = aR ∧
    ¬(parseH t hv he aR).2.2.convertedRef < hv.maps.length ∧
    ¬(parseH t hv he aR).2.2.errorsRef < he.maps.length ∧
    (parseH t hv he aR).1.read (parseH t hv he aR).2.2.convertedRef =
      (t.Parse (hv.read aR)).converted ∧
    (parseH t hv he aR).2.1.read (parseH t hv he aR).2.2.errorsRef =
      (t.Parse (hv.read aR)).errors := by
  have hv1def : (hv.alloc []).1 = ⟨hv.maps ++ [[]]⟩ := rfl
  have he1def : (he.alloc []).1 = ⟨he.maps ++ [[]]⟩ := rfl
  set hv1 : HeapOf Value := ⟨hv.maps ++ [[]]⟩ with hhv1
  set he1 : HeapOf GoError := ⟨he.maps ++ [[]]⟩ with hhe1
  set cR := hv.maps.length with hcR
  set eR := he.maps.length with heR
  have hv1r : ∀ r, r < hv.maps.length → hv1.read r = hv.read r := by
    intro r hr
    rw [HeapOf.read, HeapOf.read, hhv1]
    simp only []
    rw [List.getElem?_append_left hr]
  have he1r : ∀ r, r < he.maps.length → he1.read r = he.read r := by
    intro r hr
    rw [HeapOf.read, HeapOf.read, hhe1]
    simp only []
    rw [List.getElem?_append_left hr]
  have hv1c : hv1.read cR = [] := by
    rw [HeapOf.read, hhv1, hcR]
    simp only []
    rw [List.getElem?_concat_length]
    rfl
  have he1e : he1.read eR = [] := by
    rw [HeapOf.read, hhe1, heR]
    simp only []
    rw [List.getElem?_concat_length]
    rfl
  have hres : parseH t hv he aR =
      ((parseFieldsH hv1 he1 aR cR eR t.fieldsByName).1,
       (parseFieldsH hv1 he1 aR cR eR t.fieldsByName).2,
       { originalRef := aR, convertedRef := cR, errorsRef := eR }) := rfl
  have hca : cR ≠ aR := by omega
  have haread : hv1.read aR = hv.read aR := hv1r aR ha
  have hframe := parseFieldsH_frame aR cR eR t.fieldsByName hv1 he1
  have hcontent := parseFieldsH_content aR cR eR hca t.fieldsByName hv1 he1
    { t := t, original := hv.read aR, converted := [], errors := [] }
    (by rw [hhv1]; simp [hcR]) (by rw [hhe1]; simp [heR]) (by rw [hv1c]) (by rw [he1e])
  rw [haread] at hcontent
  rw [hres]
  refine ⟨?_, ?_, rfl, by show ¬cR < hv.maps.length; omega,
    by show ¬eR < he.maps.length; omega, ?_, ?_⟩
  · intro r hr
    rw [hframe.1 r (by omega), hv1r r hr]
  · intro r hr
    rw [hframe.2 r (by omega), he1r r hr]
  · exact hcontent.1
  · exact hcontent.2

/-- Witness for C10: a one-map heap holding the input for a one-field type;
the input map reads back unchanged after Parse and the fresh converted map
holds the parse result. -/
theorem parse_frame_witness :
    (0 : Nat) < (HeapOf.mk [[("a", Value.vstr (gs "5"))]] : HeapOf Value).maps.length ∧
    (parseH ⟨[⟨"a", [int64Convert]⟩]⟩ ⟨[[("a", Value.vstr (gs "5"))]]⟩ ⟨[]⟩ 0).1.read 0 =
      [("a", Value.vstr (gs "5"))] ∧
    (parseH ⟨[⟨"a", [int64Convert]⟩]⟩ ⟨[[("a", Value.vstr (gs "5"))]]⟩ ⟨[]⟩ 0).1.read
      (parseH ⟨[⟨"a", [int64Convert]⟩]⟩ ⟨[[("a", Value.vstr (gs "5"))]]⟩ ⟨[]⟩ 0).2.2.convertedRef =
      (GoType.Parse ⟨[⟨"a", [int64Convert]⟩]⟩ [("a", Value.vstr (gs "5"))]).converted := by
  have h := parse_frame ⟨[⟨"a", [int64Convert]⟩]⟩ ⟨[[("a", Value.vstr (gs "5"))]]⟩ ⟨[]⟩ 0
    (by simp)
  refine ⟨by simp, ?_, h.2.2.2.2.2.1⟩
  have h0 := h.1 0 (by simp)
  rw [h0]
  rfl

/-! ## Claim C8 -/

/-- When every field's chain succeeds on its looked-up value, the errors map
stays untouched. -/
theorem parseFields_errors_of_all_ok (attrs : AList Value) :
    ∀ (fs : List (String × StandardField)) (r : Record),
      (∀ p ∈ fs, (p.2.ConvertValue (goIndex attrs p.2.name)).2 = none) →
      (parseFields attrs fs r).errors = r.errors := by
  intro fs
  induction fs with
  | nil => intro r _; rfl
  | cons p rest ih =>
      intro r h
      obtain ⟨k, f⟩ := p
      rw [parseFields]
      rcases hcv : f.ConvertValue (goIndex attrs f.name) with ⟨v, err⟩
      cases err with
      | none => exact ih _ (fun q hq => h q (List.mem_cons_of_mem _ hq))
      | some e =>
          exfalso
          have := h (k, f) (List.mem_cons_self _ _)
          rw [hcv] at this
          simp at this

/-- A user-written converter (the package exposes ValueConverterFunc for
arbitrary converters): appends the letter x to a string and passes any
other value through. Its converted type aligns with its accepted input type
(string to string). -/
def appendX : ValueConverter := fun v =>
  match v with
  | .vstr s => (.vstr (s ++ [.rune 120]), none)
  | v => (v, none)

/-- C8 counterexample: with the type whose single field "a" carries the
string-to-string converter appendX, parsing the map a ↦ "a" succeeds with
no errors, yet re-parsing the Attrs output yields a Record whose converted
map differs from those Attrs ("axx" versus "ax") — re-parsing is not
idempotent for every Type even when the value types align. -/
theorem reparse_not_idempotent :
    ((GoType.Parse ⟨[⟨"a", [appendX]⟩]⟩ [("a", .vstr (gs "a"))]).Errors = none) ∧
    ((GoType.Parse ⟨[⟨"a", [appendX]⟩]⟩ [("a", .vstr (gs "a"))]).Attrs =
      [("a", Value.vstr (gs "ax"))]) ∧
    ((GoType.Parse ⟨[⟨"a", [appendX]⟩]⟩
        ((GoType.Parse ⟨[⟨"a", [appendX]⟩]⟩ [("a", .vstr (gs "a"))]).Attrs)).Errors = none) ∧
    ((GoType.Parse ⟨[⟨"a", [appendX]⟩]⟩
        ((GoType.Parse ⟨[⟨"a", [appendX]⟩]⟩ [("a", .vstr (gs "a"))]).Attrs)).converted =
      [("a", Value.vstr (gs "axx"))]) ∧
    ((GoType.Parse ⟨[⟨"a", [appendX]⟩]⟩
        ((GoType.Parse ⟨[⟨"a", [appendX]⟩]⟩ [("a", .vstr (gs "a"))]).Attrs)).converted ≠
      (GoType.Parse ⟨[⟨"a", [appendX]⟩]⟩ [("a", .vstr (gs "a"))]).Attrs) := by
  refine ⟨rfl, rfl, rfl, rfl, ?_⟩
  intro h
  have h2 := congrArg (fun l => alistLookup l "a") h
  simp [alistLookup, gs] at h2

/-- C8 amended: re-parsing the Attrs of an error-free Record through the
same Type yields an equivalent Record — no errors and a pointwise-equal
converted map — provided each field's converter chain is stable on the
field's converted value (it maps that value to itself without error). The
built-in coercion converters are stable on their output types, but the
claim as stated fails for an arbitrary user converter. -/
theorem reparse_stable_amended (t : GoType) (m : AList Value)
    (hnoerr : (t.Parse m).errors = [])
    (hstable : ∀ s f, alistLookup t.fieldsByName s = some f →
        f.ConvertValue (goIndex (t.Parse m).converted s) =
          (goIndex (t.Parse m).converted s, none)) :
    (t.Parse (t.Parse m).Attrs).Errors = none ∧
    ∀ s, alistLookup (t.Parse (t.Parse m).Attrs).converted s =
        alistLookup (t.Parse m).Attrs s := by
  have hok : ∀ p ∈ t.fieldsByName,
      (p.2.ConvertValue (goIndex (t.Parse m).converted p.2.name)).2 = none := by
    intro p hp
    have hname := fieldsByName_key_eq_name t p hp
    have hlook : alistLookup t.fieldsByName p.2.name = some p.2 := by
      rw [← hname]
      exact alistLookup_eq_some_of_mem (fieldsByName_keys_nodup t)
        (by rw [show (p.1, p.2) = p from rfl]; exact hp)
    rw [hstable p.2.name p.2 hlook]
  constructor
  · rw [Record.Errors]
    have : (t.Parse (t.Parse m).Attrs).errors = [] := by
      show (t.Parse (t.Parse m).converted).errors = []
      rw [GoType.Parse]
      rw [parseFields_errors_of_all_ok _ t.fieldsByName _ hok]
    rw [this]
    rfl
  · intro s
    show alistLookup (t.Parse (t.Parse m).converted).converted s =
      alistLookup (t.Parse m).converted s
    rw [Parse_converted_lookup]
    cases hf : alistLookup t.fieldsByName s with
    | none =>
        rw [Parse_converted_lookup t m s, hf]
    | some f =>
        have herrNone : alistLookup (t.Parse m).errors s = none := by
          rw [hnoerr]; rfl
        rcases hchain : f.ConvertValue (goIndex m s) with ⟨v, err⟩
        cases err with
        | some e =>
            exfalso
            rw [Parse_errors_lookup t m s, hf] at herrNone
            simp [hchain] at herrNone
        | none =>
            have hconv : alistLookup (t.Parse m).converted s = some v := by
              rw [Parse_converted_lookup t m s, hf]
              simp [hchain]
            have hgi : goIndex (t.Parse m).converted s = v := by
              rw [goIndex, hconv]
              rfl
            have hst2 : f.ConvertValue v = (v, none) := by
              have h := hstable s f hf
              rw [hgi] at h
              exact h
            simp [hgi, hst2, hconv]

/-- Witness for the amended C8: the type with one Int64 field "a" on input
a ↦ "42"; the first parse converts to int64 42, the chain is stable on it,
and re-parsing Attrs reproduces it with no errors. -/
theorem reparse_stable_amended_witness :
    ((GoType.Parse ⟨[⟨"a", [int64Convert]⟩]⟩
        ((GoType.Parse ⟨[⟨"a", [int64Convert]⟩]⟩ [("a", .vstr (gs "42"))]).Attrs)).Errors =
      none) ∧
    (alistLookup ((GoType.Parse ⟨[⟨"a", [int64Convert]⟩]⟩
        ((GoType.Parse ⟨[⟨"a", [int64Convert]⟩]⟩ [("a", .vstr (gs "42"))]).Attrs)).converted)
      "a" =
      alistLookup ((GoType.Parse ⟨[⟨"a", [int64Convert]⟩]⟩
        [("a", .vstr (gs "42"))]).Attrs) "a") := by
  have hst : ∀ s f,
      alistLookup (GoType.fieldsByName ⟨[⟨"a", [int64Convert]⟩]⟩) s = some f →
      f.ConvertValue (goIndex
        (GoType.Parse ⟨[⟨"a", [int64Convert]⟩]⟩ [("a", .vstr (gs "42"))]).converted s) =
        (goIndex
          (GoType.Parse ⟨[⟨"a", [int64Convert]⟩]⟩ [("a", .vstr (gs "42"))]).converted s,
         none) := by
    intro s f h
    rw [show GoType.fieldsByName ⟨[⟨"a", [int64Convert]⟩]⟩ =
        [("a", ⟨"a", [int64Convert]⟩)] from rfl] at h
    rw [alistLookup] at h
    by_cases hs : "a" = s
    · rw [if_pos hs] at h
      have hfa : (⟨"a", [int64Convert]⟩ : StandardField) = f := Option.some.inj h
      subst hfa
      subst hs
      rfl
    · rw [if_neg hs, alistLookup] at h
      exact Option.noConfusion h
  have h := reparse_stable_amended ⟨[⟨"a", [int64Convert]⟩]⟩ [("a", .vstr (gs "42"))] rfl hst
  exact ⟨h.1, h.2 "a"⟩

/-! ## Claim C5 -/

theorem ratTrunc_intCast (m : ℤ) : ratTrunc ((m : ℚ)) = m := by
  rw [ratTrunc]
  by_cases h : (0 : ℚ) ≤ (m : ℚ)
  · rw [if_pos h, Int.floor_intCast]
  · rw [if_neg h, Int.ceil_intCast]

theorem minInt64Float_cast : ((minInt64 : ℤ) : ℚ) = minInt64Float := by
  rw [minInt64, minInt64Float]
  push_cast
  ring

theorem maxInt64_lt_maxInt64Float : ((maxInt64 : ℤ) : ℚ) < maxInt64Float := by
  rw [maxInt64, maxInt64Float]
  push_cast
  norm_num

theorem minInt64Float_lt_maxInt64Float : minInt64Float < maxInt64Float := by
  rw [minInt64Float, maxInt64Float]
  norm_num

theorem convertIntFromFloat_lt (prec : Nat) (q : ℚ) (h : q < minInt64Float) :
    convertIntFromFloat prec q = .error (.msg "less than minimum allowed number") := by
  rw [convertIntFromFloat, if_pos h]

theorem convertIntFromFloat_gt (prec : Nat) (q : ℚ) (h : maxInt64Float < q) :
    convertIntFromFloat prec q = .error (.msg "greater than maximum allowed number") := by
  have h1 : ¬q < minInt64Float := by
    have := minInt64Float_lt_maxInt64Float
    linarith
  rw [convertIntFromFloat, if_neg h1, if_pos h]

theorem goFloatToInt64_intCast_of_range (m : ℤ) (h1 : minInt64 ≤ m) (h2 : m ≤ maxInt64) :
    goFloatToInt64 ((m : ℚ)) = m := by
  rw [goFloatToInt64]
  simp only [ratTrunc_intCast]
  simp [not_lt.mpr h1, not_lt.mpr h2]

/-- Accepted floats are exactly integral values in int64 range, and they
convert losslessly: what convertIntFromFloat returns is the input itself.
The hround hypothesis records that the minimum int64 survives the rounding
(true for both 24 and 53 bits, by computation at use sites). -/
theorem convertIntFromFloat_ok_inv (prec : Nat) (q : ℚ) (n : ℤ)
    (hround : roundIntToFloat prec minInt64 = minInt64)
    (h : convertIntFromFloat prec q = .ok n) :
    q = (n : ℚ) ∧ minInt64 ≤ n ∧ n ≤ maxInt64 := by
  rw [convertIntFromFloat] at h
  by_cases h1 : q < minInt64Float
  · rw [if_pos h1] at h
    exact absurd h (by simp)
  rw [if_neg h1] at h
  by_cases h2 : maxInt64Float < q
  · rw [if_pos h2] at h
    exact absurd h (by simp)
  rw [if_neg h2] at h
  by_cases h3 : ((roundIntToFloat prec (goFloatToInt64 q) : ℚ) ≠ q)
  · rw [if_pos h3] at h
    exact absurd h (by simp)
  rw [if_neg h3] at h
  have heq : (roundIntToFloat prec (goFloatToInt64 q) : ℚ) = q := not_ne_iff.mp h3
  have hn : n = goFloatToInt64 q := (Except.ok.inj h).symm
  set m := roundIntToFloat prec (goFloatToInt64 q) with hm
  have hq : q = (m : ℚ) := heq.symm
  have htr : ratTrunc q = m := by rw [hq, ratTrunc_intCast]
  by_cases hrange : m < minInt64 ∨ maxInt64 < m
  · exfalso
    have hg : goFloatToInt64 q = minInt64 := by
      rcases hrange with hr | hr
      · rw [goFloatToInt64]
        simp [htr, hr]
      · rw [goFloatToInt64]
        simp [htr, hr]
    have hm2 : m = minInt64 := by rw [hm, hg, hround]
    rw [hm2] at hrange
    rcases hrange with hr | hr
    · exact absurd hr (by simp)
    · exact absurd hr (by rw [maxInt64, minInt64]; norm_num)
  · push_neg at hrange
    have hg : goFloatToInt64 q = m := by
      rw [goFloatToInt64]
      simp [htr, not_lt.mpr hrange.1, not_lt.mpr hrange.2]
    rw [hn, hg]
    exact ⟨by rw [hq], hrange.1, hrange.2⟩

/-- An integral value in range whose rounding to the float format is exact
is accepted and returned unchanged. -/
theorem convertIntFromFloat_ok_exact (prec : Nat) (n : ℤ)
    (h1 : minInt64 ≤ n) (h2 : n ≤ maxInt64) (h3 : (roundIntToFloat prec n : ℚ) = (n : ℚ)) :
    convertIntFromFloat prec ((n : ℚ)) = .ok n := by
  have hg : goFloatToInt64 ((n : ℚ)) = n := goFloatToInt64_intCast_of_range n h1 h2
  have hc1 : ¬((n : ℚ) < minInt64Float) := by
    rw [← minInt64Float_cast]
    exact not_lt.mpr (by exact_mod_cast h1)
  have hc2 : ¬(maxInt64Float < (n : ℚ)) := by
    have ha : (n : ℚ) ≤ ((maxInt64 : ℤ) : ℚ) := by exact_mod_cast h2
    have hb := maxInt64_lt_maxInt64Float
    exact not_lt.mpr (le_of_lt (lt_of_le_of_lt ha hb))
  have hc3 : ¬((roundIntToFloat prec (goFloatToInt64 ((n : ℚ))) : ℚ) ≠ (n : ℚ)) := by
    rw [hg]
    exact not_ne_iff.mpr h3
  rw [convertIntFromFloat, if_neg hc1, if_neg hc2, if_neg hc3, hg]

/-- The one float value that exceeds the int64 range yet escapes the range
comparison: 2^63 (the rounding of math.MaxInt64 to a float). Under the
modeled truncating conversion it fails the integrality check instead, with
"not a valid number" rather than a range error. -/
theorem convertIntFromFloat_pow63 :
    convertIntFromFloat 53 ((2 : ℚ) ^ 63) = .error (.msg "not a valid number") := by
  have hq : ((2 : ℚ) ^ 63) = (((2 ^ 63 : ℤ) : ℚ)) := by push_cast; ring
  have h1 : ¬((2 : ℚ) ^ 63 < minInt64Float) := by
    rw [minInt64Float]
    norm_num
  have h2 : ¬(maxInt64Float < (2 : ℚ) ^ 63) := by
    rw [maxInt64Float]
    exact lt_irrefl _
  have htr : ratTrunc ((2 : ℚ) ^ 63) = 2 ^ 63 := by rw [hq, ratTrunc_intCast]
  have hg : goFloatToInt64 ((2 : ℚ) ^ 63) = minInt64 := by
    rw [goFloatToInt64]
    simp [htr]
    rw [maxInt64]
    norm_num
  have h3 : ((roundIntToFloat 53 (goFloatToInt64 ((2 : ℚ) ^ 63)) : ℚ) ≠ (2 : ℚ) ^ 63) := by
    rw [hg, show roundIntToFloat 53 minInt64 = minInt64 from by decide, minInt64]
    push_cast
    intro hcontra
    norm_num at hcontra
  rw [convertIntFromFloat, if_neg h1, if_neg h2, if_pos h3]

theorem minInt32_lt_maxInt32 : minInt32 < maxInt32 := by
  rw [minInt32, maxInt32]
  norm_num

theorem convertInt32_lt (v : Value) (n : ℤ) (h : convertInt64 v = .ok n)
    (hn : n < minInt32) : convertInt32 v = .error (.msg "less than minimum allowed number") := by
  rw [convertInt32, h]
  simp only []
  rw [if_pos hn]

theorem convertInt32_gt (v : Value) (n : ℤ) (h : convertInt64 v = .ok n)
    (hn : maxInt32 < n) :
    convertInt32 v = .error (.msg "greater than maximum allowed number") := by
  rw [convertInt32, h]
  simp only []
  have h1 : ¬n < minInt32 := by
    have := minInt32_lt_maxInt32
    linarith
  rw [if_neg h1, if_pos hn]

theorem convertInt32_ok (v : Value) (n : ℤ) (h : convertInt64 v = .ok n)
    (h1 : minInt32 ≤ n) (h2 : n ≤ maxInt32) : convertInt32 v = .ok n := by
  rw [convertInt32, h]
  simp only []
  rw [if_neg (not_lt.mpr h1), if_neg (not_lt.mpr h2)]

/-- C5 counterexample: the numeric string "9223372036854775808" (2^63)
exceeds the int64 range, yet convertInt64 fails it with "not a valid
number" — the string branch delegates to ParseInt and collapses its range
error — not with a distinguished range-kind error. -/
theorem int64_out_of_range_string_not_range_error :
    convertInt64 (.vstr (gs "9223372036854775808")) = .error (.msg "not a valid number") ∧
    (maxInt64 : ℤ) < 9223372036854775808 ∧
    GoError.msg "not a valid number" ≠ GoError.msg "greater than maximum allowed number" ∧
    GoError.msg "not a valid number" ≠ GoError.msg "less than minimum allowed number" := by
  refine ⟨rfl, by decide, fun h => ?_, fun h => ?_⟩
  · injection h with h2
    exact absurd h2 (by decide)
  · injection h with h2
    exact absurd h2 (by decide)

/-- C5 amended: range errors are guaranteed for the typed numeric inputs —
integer values of the fixed-width cases convert losslessly, uint64/uint
values above the int64 maximum and float values beyond the float-rounded
int64 bounds get the distinguished range errors, a float is accepted by the
integer conversions exactly when it is an integral value in int64 range
(and then losslessly), convertInt32 range-checks the int64 result, and
convertFloat32 range-checks against the float32 range and returns the
float32 rounding (the identity on values that round-trip). The exceptions
the code carries: a numeric string out of int64 range fails with "not a
valid number" (collapsed ParseInt error), and the single float value 2^63 —
out of range, but equal to the float rounding of the maximum — escapes the
range comparison and fails the integrality check with "not a valid number"
under the modeled truncating conversion. -/
theorem numeric_conversion_amended :
    ((∀ n : ℤ, convertInt64 (.vint8 n) = .ok n) ∧
     (∀ n : ℤ, convertInt64 (.vuint8 n) = .ok n) ∧
     (∀ n : ℤ, convertInt64 (.vint16 n) = .ok n) ∧
     (∀ n : ℤ, convertInt64 (.vuint16 n) = .ok n) ∧
     (∀ n : ℤ, convertInt64 (.vint32 n) = .ok n) ∧
     (∀ n : ℤ, convertInt64 (.vuint32 n) = .ok n) ∧
     (∀ n : ℤ, convertInt64 (.vint64 n) = .ok n) ∧
     (∀ n : ℤ, convertInt64 (.vint n) = .ok n)) ∧
    ((∀ n : ℤ, maxInt64 < n →
        convertInt64 (.vuint64 n) = .error (.msg "greater than maximum allowed number")) ∧
     (∀ n : ℤ, ¬maxInt64 < n → convertInt64 (.vuint64 n) = .ok n) ∧
     (∀ n : ℤ, maxInt64 < n →
        convertInt64 (.vuint n) = .error (.msg "greater than maximum allowed number")) ∧
     (∀ n : ℤ, ¬maxInt64 < n → convertInt64 (.vuint n) = .ok n)) ∧
    ((∀ q : ℚ, q < minInt64Float →
        convertInt64 (.vfloat64 q) = .error (.msg "less than minimum allowed number")) ∧
     (∀ q : ℚ, maxInt64Float < q →
        convertInt64 (.vfloat64 q) = .error (.msg "greater than maximum allowed number")) ∧
     (∀ q : ℚ, q < minInt64Float →
        convertInt64 (.vfloat32 q) = .error (.msg "less than minimum allowed number")) ∧
     (∀ q : ℚ, maxInt64Float < q →
        convertInt64 (.vfloat32 q) = .error (.msg "greater than maximum allowed number"))) ∧
    ((∀ (q : ℚ) (n : ℤ), convertInt64 (.vfloat64 q) = .ok n →
        q = (n : ℚ) ∧ minInt64 ≤ n ∧ n ≤ maxInt64) ∧
     (∀ (q : ℚ) (n : ℤ), convertInt64 (.vfloat32 q) = .ok n →
        q = (n : ℚ) ∧ minInt64 ≤ n ∧ n ≤ maxInt64) ∧
     (∀ n : ℤ, minInt64 ≤ n → n ≤ maxInt64 → (roundIntToFloat 53 n : ℚ) = (n : ℚ) →
        convertInt64 (.vfloat64 ((n : ℚ))) = .ok n) ∧
     (∀ n : ℤ, minInt64 ≤ n → n ≤ maxInt64 → (roundIntToFloat 24 n : ℚ) = (n : ℚ) →
        convertInt64 (.vfloat32 ((n : ℚ))) = .ok n)) ∧
    (convertInt64 (.vfloat64 ((2 : ℚ) ^ 63)) = .error (.msg "not a valid number") ∧
     maxInt64Float = (2 : ℚ) ^ 63 ∧ ((maxInt64 : ℤ) : ℚ) < (2 : ℚ) ^ 63) ∧
    ((∀ (v : Value) (n : ℤ), convertInt64 v = .ok n → n < minInt32 →
        convertInt32 v = .error (.msg "less than minimum allowed number")) ∧
     (∀ (v : Value) (n : ℤ), convertInt64 v = .ok n → maxInt32 < n →
        convertInt32 v = .error (.msg "greater than maximum allowed number")) ∧
     (∀ (v : Value) (n : ℤ), convertInt64 v = .ok n → minInt32 ≤ n → n ≤ maxInt32 →
        convertInt32 v = .ok n)) ∧
    ((∀ q : ℚ, q < -maxFloat32 →
        convertFloat32 (.vfloat64 q) = .error (.msg "less than minimum allowed number")) ∧
     (∀ q : ℚ, maxFloat32 < q →
        convertFloat32 (.vfloat64 q) = .error (.msg "greater than maximum allowed number")) ∧
     (∀ q : ℚ, ¬q < -maxFloat32 → ¬maxFloat32 < q →
        convertFloat32 (.vfloat64 q) = .ok (roundF32 q)) ∧
     (∀ q : ℚ, ¬q < -maxFloat32 → ¬maxFloat32 < q → roundF32 q = q →
        convertFloat32 (.vfloat64 q) = .ok q)) ∧
    (convertInt64 (.vstr (gs "9223372036854775808")) = .error (.msg "not a valid number") ∧
     (maxInt64 : ℤ) < 9223372036854775808) := by
  have hmaxf32pos : (0 : ℚ) < maxFloat32 := by rw [maxFloat32]; norm_num
  have f32ok : ∀ q : ℚ, ¬q < -maxFloat32 → ¬maxFloat32 < q →
      convertFloat32 (.vfloat64 q) = .ok (roundF32 q) := by
    intro q h1 h2
    show (if q < -maxFloat32 then (Except.error (GoError.msg "less than minimum allowed number") :
        Except GoError ℚ)
      else if maxFloat32 < q then .error (.msg "greater than maximum allowed number")
      else .ok (roundF32 q)) = .ok (roundF32 q)
    rw [if_neg h1, if_neg h2]
  refine ⟨⟨fun n => rfl, fun n => rfl, fun n => rfl, fun n => rfl, fun n => rfl, fun n => rfl,
      fun n => rfl, fun n => rfl⟩,
    ⟨?_, ?_, ?_, ?_⟩, ⟨?_, ?_, ?_, ?_⟩, ⟨?_, ?_, ?_, ?_⟩, ⟨?_, rfl, ?_⟩, ⟨?_, ?_, ?_⟩,
    ⟨?_, ?_, f32ok, ?_⟩, rfl, by decide⟩
  · intro n h
    show (if maxInt64 < n then (Except.error (GoError.msg "greater than maximum allowed number") :
        Except GoError Int) else .ok n) = _
    rw [if_pos h]
  · intro n h
    show (if maxInt64 < n then (Except.error (GoError.msg "greater than maximum allowed number") :
        Except GoError Int) else .ok n) = _
    rw [if_neg h]
  · intro n h
    show (if maxInt64 < n then (Except.error (GoError.msg "greater than maximum allowed number") :
        Except GoError Int) else .ok n) = _
    rw [if_pos h]
  · intro n h
    show (if maxInt64 < n then (Except.error (GoError.msg "greater than maximum allowed number") :
        Except GoError Int) else .ok n) = _
    rw [if_neg h]
  · exact fun q h => convertIntFromFloat_lt 53 q h
  · exact fun q h => convertIntFromFloat_gt 53 q h
  · exact fun q h => convertIntFromFloat_lt 24 q h
  · exact fun q h => convertIntFromFloat_gt 24 q h
  · exact fun q n h => convertIntFromFloat_ok_inv 53 q n (by decide) h
  · exact fun q n h => convertIntFromFloat_ok_inv 24 q n (by decide) h
  · exact fun n h1 h2 h3 => convertIntFromFloat_ok_exact 53 n h1 h2 h3
  · exact fun n h1 h2 h3 => convertIntFromFloat_ok_exact 24 n h1 h2 h3
  · exact convertIntFromFloat_pow63
  · exact maxInt64_lt_maxInt64Float
  · exact fun v n h hn => convertInt32_lt v n h hn
  · exact fun v n h hn => convertInt32_gt v n h hn
  · exact fun v n h h1 h2 => convertInt32_ok v n h h1 h2
  · intro q h
    show (if q < -maxFloat32 then (Except.error (GoError.msg "less than minimum allowed number") :
        Except GoError ℚ)
      else if maxFloat32 < q then .error (.msg "greater than maximum allowed number")
      else .ok (roundF32 q)) = _
    rw [if_pos h]
  · intro q h
    have h1 : ¬q < -maxFloat32 := by
      intro hc
      have : -maxFloat32 < maxFloat32 := by linarith
      linarith
    show (if q < -maxFloat32 then (Except.error (GoError.msg "less than minimum allowed number") :
        Except GoError ℚ)
      else if maxFloat32 < q then .error (.msg "greater than maximum allowed number")
      else .ok (roundF32 q)) = _
    rw [if_neg h1, if_pos h]
  · intro q h1 h2 h3
    rw [f32ok q h1 h2, h3]

/-- Witness for the amended C5: each guarded conjunct exercised at a
concrete input. -/
theorem numeric_conversion_amended_witness :
    convertInt64 (.vuint64 (2 ^ 63)) = .error (.msg "greater than maximum allowed number") ∧
    convertInt64 (.vuint64 5) = .ok 5 ∧
    convertInt64 (.vfloat64 (-(2 : ℚ) ^ 64)) = .error (.msg "less than minimum allowed number") ∧
    convertInt64 (.vfloat64 ((2 : ℚ) ^ 64)) = .error (.msg "greater than maximum allowed number") ∧
    convertInt64 (.vfloat64 (((3 : ℤ) : ℚ))) = .ok 3 ∧
    (((3 : ℤ) : ℚ) = ((3 : ℤ) : ℚ) ∧ minInt64 ≤ 3 ∧ (3 : ℤ) ≤ maxInt64) ∧
    convertInt32 (.vint64 3000000000) = .error (.msg "greater than maximum allowed number") ∧
    convertInt32 (.vint64 5) = .ok 5 ∧
    convertFloat32 (.vfloat64 ((2 : ℚ) ^ 128)) = .error (.msg "greater than maximum allowed number") ∧
    convertFloat32 (.vfloat64 0) = .ok 0 := by
  have A := numeric_conversion_amended
  have hr3 : (roundIntToFloat 53 (3 : ℤ) : ℚ) = ((3 : ℤ) : ℚ) := by
    rw [show roundIntToFloat 53 (3 : ℤ) = (3 : ℤ) from by decide]
  have hok3 : convertInt64 (.vfloat64 (((3 : ℤ) : ℚ))) = .ok 3 :=
    A.2.2.2.1.2.2.1 3 (by decide) (by decide) hr3
  refine ⟨A.2.1.1 (2 ^ 63) (by decide), A.2.1.2.1 5 (by decide),
    A.2.2.1.1 (-(2 : ℚ) ^ 64) (by rw [minInt64Float]; norm_num),
    A.2.2.1.2.1 ((2 : ℚ) ^ 64) (by rw [maxInt64Float]; norm_num),
    hok3, A.2.2.2.1.1 (((3 : ℤ) : ℚ)) 3 hok3,
    A.2.2.2.2.2.1.2.1 (.vint64 3000000000) 3000000000 rfl (by decide),
    A.2.2.2.2.2.1.2.2 (.vint64 5) 5 rfl (by decide) (by decide),
    A.2.2.2.2.2.2.1.2.1 ((2 : ℚ) ^ 128) (by rw [maxFloat32]; norm_num), ?_⟩
  have h0 : roundF32 (0 : ℚ) = 0 := by
    rw [roundF32, roundRatToFloat]
    simp
  exact A.2.2.2.2.2.2.1.2.2.2 0 (by rw [maxFloat32]; norm_num) (by rw [maxFloat32]; norm_num) h0

end MP
